import Mathlib

/-!
Verification of the Aho-Corasick multi-pattern string matcher in
`AhoCorasick/AhoCorasickImplementation/aho_corasick.go`.

The Go code stores nodes on the heap with pointers (`children map[rune]*Node`,
`fail *Node`, `output []string`).  We embed it with an arena: the automaton is
a list of nodes, node 0 is the root, and child/failure pointers are indices
into that list.  A nil pointer is `none`.  Strings are lists of `Char`
(Go iterates strings by rune, i.e. by Unicode code point).  Go's unordered
`map[rune]*Node` becomes an association list in insertion order; all results
proved here are shown independent of that order where the claims need it.

Go's `for index, character := range text` yields the BYTE offset of each rune,
and `len(pattern)` is the pattern's UTF-8 byte length; the embedding mirrors
both exactly (`Char.utf8Size` agrees with Go's UTF-8 encoding), so recorded
match positions are `Int` (the expression `index - len(pattern) + 1` can be
negative).
-/

/-- One state of the trie / automaton.  Mirrors Go `type Node struct`:
`children map[rune]*Node`, `fail *Node`, `output []string`. -/
structure Node where
  children : List (Char × Nat)
  fail : Option Nat
  output : List (List Char)
deriving DecidableEq, Repr

/-- The automaton.  Mirrors Go `type AhoCorasick struct { root *Node }`;
the whole reachable heap is the arena `nodes`, with the root at index 0. -/
structure AhoCorasick where
  nodes : List Node
deriving DecidableEq, Repr

/-- A freshly allocated node: `&Node{children: make(map[rune]*Node), output: []string{}}`
(the `fail` pointer is left nil). -/
def newNode : Node := { children := [], fail := none, output := [] }

/-- Mirrors `NewAhoCorasick()`: an automaton holding just the fresh root node. -/
def NewAhoCorasick : AhoCorasick := { nodes := [newNode] }

/-- Read the node at arena index `i` (total; indices are always in range on
reachable automata). -/
def getNode (a : AhoCorasick) (i : Nat) : Node := a.nodes.getD i newNode

/-- Replace the node at arena index `i` by `f` of its current value,
modelling an in-place field update through a pointer. -/
def setNode (a : AhoCorasick) (i : Nat) (f : Node → Node) : AhoCorasick :=
  { nodes := a.nodes.set i (f (getNode a i)) }

/-- Lookup in the children map: Go `node.children[character]`. -/
def childLookup (children : List (Char × Nat)) (c : Char) : Option Nat :=
  match children with
  | [] => none
  | (c', j) :: rest => if c' = c then some j else childLookup rest c

/-- The walking loop of `AddPattern`: follow (or create) one node per
character, returning the updated arena and the terminal node's index.
New nodes are appended at the end of the arena, so a child's index is
always strictly greater than its parent's. -/
def addPatternLoop (a : AhoCorasick) (cur : Nat) : List Char → AhoCorasick × Nat
  | [] => (a, cur)
  | c :: cs =>
    match childLookup (getNode a cur).children c with
    | some j => addPatternLoop a j cs
    | none =>
      let j := a.nodes.length
      let a' := setNode { nodes := a.nodes ++ [newNode] } cur
        (fun n => { n with children := n.children ++ [(c, j)] })
      addPatternLoop a' j cs

/-- Mirrors `AddPattern`: walk the trie creating missing nodes, then
`node.output = append(node.output, pattern)` at the terminal node. -/
def AddPattern (a : AhoCorasick) (pattern : List Char) : AhoCorasick :=
  let r := addPatternLoop a 0 pattern
  setNode r.1 r.2 (fun n => { n with output := n.output ++ [pattern] })

/-- Insert a whole list of patterns into a fresh automaton, in order. -/
def insertAll (patterns : List (List Char)) : AhoCorasick :=
  patterns.foldl AddPattern NewAhoCorasick

/-- The inner loop of `BuildFailureLinks`:
`for fail != nil && fail.children[character] == nil { fail = fail.fail }`.
`f` is the current value of the `fail` pointer (`none` = nil).  The walk
visits nodes of strictly decreasing depth on every reachable automaton, so
fuel `a.nodes.length` is always enough; running out of fuel returns the
current pointer unchanged (proved unreachable where it matters). -/
def failChainWalk (a : AhoCorasick) (c : Char) : Nat → Option Nat → Option Nat
  | 0, f => f
  | fuel + 1, f =>
    match f with
    | none => none
    | some fi =>
      match childLookup (getNode a fi).children c with
      | some _ => some fi
      | none => failChainWalk a c fuel (getNode a fi).fail

/-- Body of the BFS inner `for character, child := range current.children`:
resolve one child's failure link and merge the fail target's outputs.
`fail = current.fail` is re-read from the live arena, as in the Go code. -/
def buildChild (a : AhoCorasick) (cur : Nat) (c : Char) (childIdx : Nat) : AhoCorasick :=
  match failChainWalk a c a.nodes.length (getNode a cur).fail with
  | none => setNode a childIdx (fun n => { n with fail := some 0 })
  | some fi =>
    let j := (childLookup (getNode a fi).children c).getD 0
    setNode a childIdx (fun n =>
      { n with fail := some j, output := n.output ++ (getNode a j).output })

/-- Process all children of the dequeued node `cur`, enqueueing each child
right after its links are set (Go pushes to the back of the BFS queue). -/
def buildChildren (a : AhoCorasick) (cur : Nat) (queue : List Nat) :
    List (Char × Nat) → AhoCorasick × List Nat
  | [] => (a, queue)
  | (c, j) :: rest => buildChildren (buildChild a cur c j) cur (queue ++ [j]) rest

/-- The BFS loop `for queue.Len() > 0`.  Each node is enqueued at most once,
so fuel `a.nodes.length` always outlasts the queue on reachable automata. -/
def buildLoop : Nat → AhoCorasick → List Nat → AhoCorasick
  | 0, a, _ => a
  | _ + 1, a, [] => a
  | fuel + 1, a, cur :: rest =>
    let r := buildChildren a cur rest (getNode a cur).children
    buildLoop fuel r.1 r.2

/-- The initialization loop of `BuildFailureLinks`: every depth-1 child gets
`child.fail = root` and is enqueued. -/
def buildInit (a : AhoCorasick) : AhoCorasick × List Nat :=
  (getNode a 0).children.foldl
    (fun r cj => (setNode r.1 cj.2 (fun n => { n with fail := some 0 }), r.2 ++ [cj.2]))
    (a, [])

/-- Mirrors `BuildFailureLinks`: seed the queue with the root's children,
then run the BFS. -/
def BuildFailureLinks (a : AhoCorasick) : AhoCorasick :=
  let r := buildInit a
  buildLoop a.nodes.length r.1 r.2

/-- UTF-8 byte length of a string, i.e. Go's `len(pattern)`. -/
def byteLen (s : List Char) : Nat := (s.map Char.utf8Size).sum

/-- The state-advance loop of `Search`:
`for node != aho.root && node.children[character] == nil { node = node.fail }`.
`none` models a nil `*Node`: dereferencing it (as the Go loop condition does)
panics, which we propagate as `none` overall.  Fuel exhaustion also yields
`none`; it is proved unreachable on compiled automata. -/
def searchWalk (a : AhoCorasick) (c : Char) : Nat → Option Nat → Option Nat
  | 0, _ => none
  | fuel + 1, node? =>
    match node? with
    | none => none
    | some ni =>
      if ni = 0 then some ni
      else
        match childLookup (getNode a ni).children c with
        | some _ => some ni
        | none => searchWalk a c fuel (getNode a ni).fail

/-- `result[pattern] = append(result[pattern], pos)` on a Go
`map[string][]int`, embedded as an association list in first-insertion
order. -/
def recordMatch (result : List (List Char × List Int)) (p : List Char) (pos : Int) :
    List (List Char × List Int) :=
  match result with
  | [] => [(p, [pos])]
  | (q, l) :: rest =>
    if q = p then (q, l ++ [pos]) :: rest else (q, l) :: recordMatch rest p pos

/-- Record every pattern of `node.output` at byte offset `index`:
`result[pattern] = append(result[pattern], index-len(pattern)+1)`. -/
def recordOutputs (index : Int) (result : List (List Char × List Int)) :
    List (List Char) → List (List Char × List Int)
  | [] => result
  | p :: ps => recordOutputs index (recordMatch result p (index - (byteLen p : Int) + 1)) ps

/-- The body of `Search`'s text loop, one rune at a time.  `index` is the
byte offset of the current rune (what Go's `range` yields) and `node` the
current state; `none` anywhere means the Go program panicked on a nil
failure link. -/
def searchLoop (a : AhoCorasick) : List Char → Nat → Nat →
    List (List Char × List Int) → Option (List (List Char × List Int))
  | [], _, _, result => some result
  | c :: cs, index, node, result =>
    match searchWalk a c a.nodes.length (some node) with
    | none => none
    | some n1 =>
      let n2 := (childLookup (getNode a n1).children c).getD n1
      searchLoop a cs (index + c.utf8Size) n2
        (recordOutputs (index : Int) result (getNode a n2).output)

/-- Mirrors `Search`: scan the text once from the root, returning the match
map, or `none` if the scan dereferenced a nil failure link (a Go panic). -/
def Search (a : AhoCorasick) (text : List Char) :
    Option (List (List Char × List Int)) :=
  searchLoop a text 0 0 []

/-- Positions recorded for pattern `p` in a result map (`[]` when absent,
like indexing a Go map with a missing key). -/
def lookupResult (result : List (List Char × List Int)) (p : List Char) : List Int :=
  match result with
  | [] => []
  | (q, l) :: rest => if q = p then l else lookupResult rest p

/-!
## Specification-level definitions

Everything below is vocabulary for stating and proving properties of the
embedding above: walking the trie by a string, the longest-suffix
characterization of failure links, the canonical (automaton-free)
description of `Search`'s result, and occurrence lists.
-/

/-- Follow forward (children) transitions from node `i` along the given
characters. -/
def walkFrom (a : AhoCorasick) : Nat → List Char → Option Nat
  | i, [] => some i
  | i, c :: cs =>
    match childLookup (getNode a i).children c with
    | none => none
    | some j => walkFrom a j cs

/-- The node reached from the root along `s`, if any: the node whose prefix
is `s`. -/
def nodeAt (a : AhoCorasick) (s : List Char) : Option Nat := walkFrom a 0 s

/-- Whether the trie contains a node for the string `s`. -/
def trieHas (a : AhoCorasick) (s : List Char) : Bool := (nodeAt a s).isSome

/-- The index of the node for `s` (0, the root, when `s` is not in the
trie; only used where `s` is). -/
def idxOf (a : AhoCorasick) (s : List Char) : Nat := (nodeAt a s).getD 0

/-- `s` is the empty string or a prefix of some pattern in `P`: the strings
that have a trie node after inserting all of `P`. -/
def pfxIn (P : List (List Char)) (s : List Char) : Prop :=
  s = [] ∨ ∃ p, p ∈ P ∧ s <+: p

/-- The longest proper suffix of `s` that has a trie node (`[]` when none
other does).  `s.tails.drop 1` lists the proper suffixes of `s` in strictly
decreasing length order, so the first surviving the filter is the longest. -/
def failSpec (a : AhoCorasick) (s : List Char) : List Char :=
  ((s.tails.drop 1).filter (fun t => trieHas a t)).headD []

/-- Iterated `failSpec`: the chain of trie suffixes a failure-link walk
visits, fuelled (the chain strictly shortens, so fuel `s.length` is exact). -/
def fsChainF (a : AhoCorasick) : Nat → List Char → List (List Char)
  | 0, _ => []
  | fuel + 1, s =>
    if s = [] then [] else failSpec a s :: fsChainF a fuel (failSpec a s)

/-- The failure chain of `s`: `failSpec s`, `failSpec (failSpec s)`, …,
ending with `[]` (for `s` nonempty in the trie). -/
def fsChain (a : AhoCorasick) (s : List Char) : List (List Char) :=
  fsChainF a s.length s

/-- The longest suffix `u` of `t` (allowing `u = t`) such that both `u` and
`u ++ [c]` have trie nodes, if any: where a failure-link walk starting at
the node of `t` stops when reading `c`. -/
def longestExt (a : AhoCorasick) (t : List Char) (c : Char) : Option (List Char) :=
  (t.tails.filter (fun u => trieHas a u && trieHas a (u ++ [c]))).head?

/-- The output list a node carries after `BuildFailureLinks`, described
over the pre-build arena `a`: its own output followed by the merged output
of its failure target, recursively (the root, `failSpec = []`, is never
merged — the Go code skips the merge when the walk falls off the root). -/
def outStarF (a : AhoCorasick) : Nat → List Char → List (List Char)
  | 0, s => (getNode a (idxOf a s)).output
  | fuel + 1, s =>
    if s = [] then (getNode a (idxOf a s)).output
    else
      (getNode a (idxOf a s)).output ++
        (if failSpec a s = [] then [] else outStarF a fuel (failSpec a s))

/-- Fuel-closed form of `outStarF` (fuel `s.length` always suffices). -/
def outStar (a : AhoCorasick) (s : List Char) : List (List Char) :=
  outStarF a s.length s

/-- The longest suffix of `u` (possibly `u` itself, possibly `[]`) that has
a trie node: the state the compiled automaton is in after scanning `u`. -/
def longSuffix (a : AhoCorasick) (u : List Char) : List Char :=
  (u.tails.filter (fun t => trieHas a t)).headD []

/-- Canonical, automaton-free description of `Search`'s loop over the
pre-build arena `a`: after each rune the state is the longest trie suffix
of the consumed text `u`, and that node's post-build output is recorded. -/
def canonLoop (a : AhoCorasick) : List Char → List Char → Nat → List (List Char × List Int) →
    List (List Char × List Int)
  | _, [], _, result => result
  | u, c :: cs, index, result =>
    canonLoop a (u ++ [c]) cs (index + c.utf8Size)
      (recordOutputs (index : Int) result (outStar a (longSuffix a (u ++ [c]))))

/-- Canonical description of `Search` on the compiled form of `a`. -/
def canonSearch (a : AhoCorasick) (text : List Char) : List (List Char × List Int) :=
  canonLoop a [] text 0 []

/-- The positions `canonLoop` appends to pattern `q`'s list while
consuming `cs` after `u`, starting at byte offset `index`: one copy of the
recorded position per copy of `q` in the emitted output at each step. -/
def canonPos (a : AhoCorasick) (q : List Char) : List Char → List Char → Nat → List Int
  | _, [], _ => []
  | u, c :: cs, index =>
    List.replicate ((outStar a (longSuffix a (u ++ [c]))).count q)
        ((index : Int) - (byteLen q : Int) + 1) ++
      canonPos a q (u ++ [c]) cs (index + c.utf8Size)

/-- Indices reachable from node `j` by following failure links one or more
times (fuelled; failure chains strictly shorten on compiled automata). -/
def failReachF (a : AhoCorasick) : Nat → Nat → List Nat
  | 0, _ => []
  | fuel + 1, j =>
    match (getNode a j).fail with
    | none => []
    | some k => k :: failReachF a fuel k

/-- All nodes reachable from `j` by following failure links transitively. -/
def failReach (a : AhoCorasick) (j : Nat) : List Nat :=
  failReachF a a.nodes.length j

/-- Byte offset of the rune at character position `i` (what Go's `range`
yields for it). -/
def bytePos (text : List Char) (i : Nat) : Nat := byteLen (text.take i)

/-- Character positions at which an occurrence of the nonempty pattern `p`
ends in `text`. -/
def occEnds (text p : List Char) : List Nat :=
  (List.range text.length).filter (fun i => !p.isEmpty && p.isSuffixOf (text.take (i + 1)))

/-- The positions `Search` records for the occurrences of `p` in `text`:
for the occurrence ending at character position `i`, the value
`bytePos i - byteLen p + 1`. -/
def occRecorded (text p : List Char) : List Int :=
  (occEnds text p).map (fun i => (bytePos text i : Int) - (byteLen p : Int) + 1)

/-- Structural well-formedness of a reachable arena: distinct strings reach
distinct nodes, every index is reached by some string, child pointers are
in range and never point back at the root, and each children list binds a
character at most once. -/
structure StructWF (a : AhoCorasick) : Prop where
  inj : ∀ s t j, nodeAt a s = some j → nodeAt a t = some j → s = t
  surj : ∀ j, j < a.nodes.length → ∃ s, nodeAt a s = some j
  child_lt : ∀ i c j, childLookup (getNode a i).children c = some j →
    j < a.nodes.length ∧ j ≠ 0
  keys_nodup : ∀ i, ((getNode a i).children.map Prod.fst).Nodup
  len_pos : 0 < a.nodes.length

/-- Full characterization of the arena produced by inserting the patterns
`P` into a fresh automaton: the trie holds exactly the prefixes of `P`, a
terminal node's output holds one copy of its string per insertion, and no
failure link is set yet. -/
structure TrieWF (P : List (List Char)) (a : AhoCorasick) : Prop where
  str : StructWF a
  mem_iff : ∀ s, (nodeAt a s).isSome ↔ pfxIn P s
  output_eq : ∀ s j, nodeAt a s = some j →
    (getNode a j).output = List.replicate (P.count s) s
  fail_none : ∀ i, (getNode a i).fail = none

/-- What `BuildFailureLinks` needs of its input arena: structural
well-formedness and an unset failure link on the root (the only stale
failure link the BFS ever reads). -/
structure PreWF (a : AhoCorasick) : Prop where
  str : StructWF a
  root_fail : (getNode a 0).fail = none

/-- The node for `s` has its post-compilation values: the failure link
points at the node of `failSpec a s`, and the output list is `outStar a s`
(`a` is the pre-build arena, `b` a state during or after the BFS). -/
def bfsFinal (a b : AhoCorasick) (s : List Char) : Prop :=
  (getNode b (idxOf a s)).fail = some (idxOf a (failSpec a s)) ∧
  (getNode b (idxOf a s)).output = outStar a s

/-- Invariant of the BFS of `BuildFailureLinks` over the base arena `a`:
`b` is the current arena, `q` the queue, `D` the strings of the nodes
dequeued so far and `qs` the strings of the still-queued nodes, in order. -/
def bfsInv (a b : AhoCorasick) (q : List Nat) (D qs : List (List Char)) : Prop :=
  b.nodes.length = a.nodes.length ∧
  (∀ j, (getNode b j).children = (getNode a j).children) ∧
  q = qs.map (idxOf a) ∧
  (∀ s ∈ D ++ qs, trieHas a s = true ∧ s ≠ []) ∧
  (D ++ qs).Nodup ∧
  qs.Pairwise (fun s t => s.length ≤ t.length) ∧
  (∀ f ∈ qs.head?, ∀ t ∈ qs, t.length ≤ f.length + 1) ∧
  (∀ s, trieHas a s = true → s ≠ [] → (∀ f ∈ qs, s.length < f.length) → s ∈ D) ∧
  (∀ s, trieHas a s = true → s ≠ [] →
    (s ∈ D ++ qs ↔ (s.length = 1 ∨ s.dropLast ∈ D))) ∧
  (∀ s ∈ D ++ qs, bfsFinal a b s) ∧
  (∀ s, trieHas a s = true → s ∉ D ++ qs →
    getNode b (idxOf a s) = getNode a (idxOf a s))

/-!
## Concrete automata used by the counterexamples
-/

/-- The automaton of the spec's worked example, compiled. -/
def exampleAuto : AhoCorasick :=
  BuildFailureLinks (insertAll ([ "a", "ab", "bab", "bc", "bca", "c", "caa" ].map String.toList))

/-- Automaton holding the empty pattern and `"a"`, compiled. -/
def emptyPlusA : AhoCorasick := BuildFailureLinks (insertAll [[], ['a']])

/-- Automaton holding only the empty pattern, compiled. -/
def emptyOnly : AhoCorasick := BuildFailureLinks (insertAll [[]])

/-- Automaton holding `"a"` and `"ba"`, compiled once. -/
def aBaOnce : AhoCorasick := BuildFailureLinks (insertAll [['a'], ['b', 'a']])

/-- The same automaton compiled twice in a row. -/
def aBaTwice : AhoCorasick := BuildFailureLinks aBaOnce

/-- `"a"` inserted twice into a fresh automaton. -/
def doubleInsertA : AhoCorasick := AddPattern (AddPattern NewAhoCorasick ['a']) ['a']

/-- C3 counterexample.  With the distinct patterns `""` and `"a"` each
inserted once and one `BuildFailureLinks` call, the node for `"a"` has
failure link to the root, the root's output holds the empty pattern, yet
the empty pattern is absent from the `"a"` node's output: its output set is
NOT the union of its own patterns with the outputs of all nodes reachable
through failure links (the root is so reachable), refuting the claim. -/
theorem c3_counterexample :
    (getNode emptyPlusA 1).fail = some 0 ∧
    [] ∈ (getNode emptyPlusA 0).output ∧
    ['a'] ∈ (getNode emptyPlusA 1).output ∧
    [] ∉ (getNode emptyPlusA 1).output := by decide

/-- C4 failing input.  The pattern `"é"` occurs in the text `"é"` starting
at character offset 0, but `Search` records `index - len(pattern) + 1` over
Go byte offsets (`range` yields byte indices, `len` counts UTF-8 bytes), so
it reports position `0 - 2 + 1 = -1`: not the Unicode code-point offset the
spec requires, and not even a valid index. -/
theorem c4_bug_eval :
    Search (BuildFailureLinks (insertAll [['é']])) ['é'] = some [(['é'], [-1])] := by decide

/-- Compiling twice with no insertions in between does not leave the
output LISTS identical: the second pass appends the fail target's outputs
again, so the node for `"ba"` ends with output list `["ba", "a", "a"]`
instead of `["ba", "a"]` — the sets coincide, which is all C5 asserts. -/
theorem double_build_output_lists :
    (getNode aBaOnce 3).output = [['b', 'a'], ['a']] ∧
    (getNode aBaTwice 3).output = [['b', 'a'], ['a'], ['a']] ∧
    aBaTwice ≠ aBaOnce := by decide

/-- C6 counterexample.  Calling `AddPattern "a"` a second time does not
leave the automaton unchanged: `AddPattern` appends unconditionally, so the
terminal node's output holds the pattern twice, and after compilation the
single occurrence of `"a"` in the text `"a"` is reported twice. -/
theorem c6_counterexample :
    doubleInsertA ≠ AddPattern NewAhoCorasick ['a'] ∧
    (getNode doubleInsertA 1).output = [['a'], ['a']] ∧
    Search (BuildFailureLinks doubleInsertA) ['a'] = some [(['a'], [0, 0])] := by decide

/-- C7 counterexample.  With the empty pattern inserted and the automaton
compiled, searching the nonempty text `"a"` reports the empty pattern (at
position `0 - 0 + 1 = 1`): the empty string does appear as a key of the
result, refuting the claim that it never does. -/
theorem c7_counterexample :
    Search emptyOnly ['a'] = some [([], [1])] := by decide

/-- C7 amended.  Searching the empty text reports nothing, but on a
nonempty text the compiled automaton holding the empty pattern records the
empty pattern at byte offset `i + 1` whenever the scan sits at the root
after consuming the rune at byte offset `i`; with only the empty pattern
inserted that is every position of `"a"`, giving the key `""`. -/
theorem c7_amended :
    Search emptyOnly [] = some [] ∧
    Search emptyOnly ['a'] = some [([], [1])] ∧
    Search emptyPlusA ['b', 'a'] = some [([], [1]), (['a'], [1])] := by decide

/-- C8 counterexample.  `Search` checks no precondition: on an automaton
whose failure links were never built, `Search "a"` with pattern `"a"`
silently returns the mapping `{"a" ↦ [0]}` — no panic, no error signal —
refuting the claim that searching before compiling never silently returns
a result mapping. -/
theorem c8_counterexample :
    Search (insertAll [['a']]) ['a'] = some [(['a'], [0])] := by decide

/-- C8 amended.  Searching before compiling is neither prevented nor
detected: it silently returns a result map whenever the scan happens never
to consult a failure link, and dereferences a nil failure link (a run-time
panic, modelled by `none`) as soon as the scan must fall back from a
non-root node. -/
theorem c8_amended :
    Search (insertAll [['a']]) ['a'] = some [(['a'], [0])] ∧
    Search (insertAll [['a', 'b']]) ['a', 'a'] = none := by decide

/-!
## Arena and trie-walk basics
-/

theorem setNode_length (a : AhoCorasick) (i : Nat) (f : Node → Node) :
    (setNode a i f).nodes.length = a.nodes.length := by
  simp [setNode]

theorem getNode_setNode_self {a : AhoCorasick} {i : Nat} (h : i < a.nodes.length)
    (f : Node → Node) : getNode (setNode a i f) i = f (getNode a i) := by
  simp [getNode, setNode, List.getD_eq_getElem?_getD, List.getElem?_set_self h]

theorem getNode_setNode_ne {a : AhoCorasick} {i j : Nat} (h : i ≠ j)
    (f : Node → Node) : getNode (setNode a i f) j = getNode a j := by
  simp [getNode, setNode, List.getD_eq_getElem?_getD, List.getElem?_set_ne h]

theorem getNode_of_le {a : AhoCorasick} {i : Nat} (h : a.nodes.length ≤ i) :
    getNode a i = newNode := by
  simp [getNode, List.getD_eq_getElem?_getD, List.getElem?_eq_none h]

theorem childLookup_mem {L : List (Char × Nat)} {c : Char} {j : Nat}
    (h : childLookup L c = some j) : (c, j) ∈ L := by
  induction L with
  | nil => simp [childLookup] at h
  | cons hd tl ih =>
    obtain ⟨c', j'⟩ := hd
    by_cases hc : c' = c
    · subst hc
      simp [childLookup] at h
      subst h
      exact List.mem_cons_self _ _
    · simp only [childLookup, if_neg hc] at h
      exact List.mem_cons_of_mem _ (ih h)

theorem childLookup_isSome_iff {L : List (Char × Nat)} {c : Char} :
    (childLookup L c).isSome ↔ ∃ j, (c, j) ∈ L := by
  constructor
  · intro h
    obtain ⟨j, hj⟩ := Option.isSome_iff_exists.mp h
    exact ⟨j, childLookup_mem hj⟩
  · rintro ⟨j, hj⟩
    induction L with
    | nil => simp at hj
    | cons hd tl ih =>
      obtain ⟨c', j'⟩ := hd
      by_cases hc : c' = c
      · simp [childLookup, hc]
      · simp only [childLookup, if_neg hc]
        rcases List.mem_cons.mp hj with h1 | h1
        · cases h1; exact absurd rfl hc
        · exact ih h1

theorem childLookup_append_right {L : List (Char × Nat)} {c c' : Char} {j : Nat}
    (h : childLookup L c' = none) :
    childLookup (L ++ [(c, j)]) c' = if c = c' then some j else none := by
  induction L with
  | nil => simp [childLookup]
  | cons hd tl ih =>
    obtain ⟨c'', j''⟩ := hd
    by_cases hc : c'' = c'
    · simp [childLookup, hc] at h
    · rw [List.cons_append]
      simp only [childLookup, if_neg hc] at h ⊢
      exact ih h

theorem childLookup_append_left {L : List (Char × Nat)} {c c' : Char} {j k : Nat}
    (h : childLookup L c' = some k) :
    childLookup (L ++ [(c, j)]) c' = some k := by
  induction L with
  | nil => simp [childLookup] at h
  | cons hd tl ih =>
    obtain ⟨c'', j''⟩ := hd
    by_cases hc : c'' = c'
    · simp [childLookup, hc] at h ⊢
      exact h
    · simp only [childLookup, if_neg hc] at h
      simp only [List.cons_append, childLookup, if_neg hc]
      exact ih h

theorem walkFrom_nil (a : AhoCorasick) (i : Nat) : walkFrom a i [] = some i := rfl

theorem walkFrom_cons (a : AhoCorasick) (i : Nat) (c : Char) (cs : List Char) :
    walkFrom a i (c :: cs) =
      (childLookup (getNode a i).children c).bind (fun j => walkFrom a j cs) := by
  cases h : childLookup (getNode a i).children c <;> simp [walkFrom, h]

theorem walkFrom_append (a : AhoCorasick) (i : Nat) (s t : List Char) :
    walkFrom a i (s ++ t) = (walkFrom a i s).bind (fun j => walkFrom a j t) := by
  induction s generalizing i with
  | nil => simp [walkFrom]
  | cons c cs ih =>
    rw [List.cons_append, walkFrom_cons, walkFrom_cons]
    cases childLookup (getNode a i).children c <;> simp [ih]

theorem walkFrom_singleton (a : AhoCorasick) (i : Nat) (c : Char) :
    walkFrom a i [c] = childLookup (getNode a i).children c := by
  rw [walkFrom_cons]
  cases childLookup (getNode a i).children c <;> simp [walkFrom]

theorem nodeAt_nil (a : AhoCorasick) : nodeAt a [] = some 0 := rfl

theorem nodeAt_concat (a : AhoCorasick) (s : List Char) (c : Char) :
    nodeAt a (s ++ [c]) = (nodeAt a s).bind (fun j => childLookup (getNode a j).children c) := by
  rw [nodeAt, walkFrom_append]
  simp only [walkFrom_singleton]
  rfl

theorem isSome_nodeAt_append {a : AhoCorasick} {s t : List Char}
    (h : (nodeAt a (s ++ t)).isSome) : (nodeAt a s).isSome := by
  rw [nodeAt, walkFrom_append] at h
  cases hs : walkFrom a 0 s with
  | none => rw [hs] at h; simp at h
  | some j => simp [nodeAt, hs]

theorem trieHas_nil (a : AhoCorasick) : trieHas a [] = true := rfl

theorem trieHas_of_append {a : AhoCorasick} {s t : List Char}
    (h : trieHas a (s ++ t) = true) : trieHas a s = true := by
  exact isSome_nodeAt_append h

theorem walkFrom_congr {a b : AhoCorasick}
    (h : ∀ k, (getNode a k).children = (getNode b k).children) (i : Nat) (s : List Char) :
    walkFrom a i s = walkFrom b i s := by
  induction s generalizing i with
  | nil => rfl
  | cons c cs ih =>
    rw [walkFrom_cons, walkFrom_cons, h i]
    cases childLookup (getNode b i).children c <;> simp [ih]

theorem nodeAt_congr {a b : AhoCorasick}
    (h : ∀ k, (getNode a k).children = (getNode b k).children) (s : List Char) :
    nodeAt a s = nodeAt b s := walkFrom_congr h 0 s

/-!
## Longest-suffix machinery

`failSpec`, `longSuffix` and `longestExt` all pick the first element of a
length-sorted `tails` list surviving a filter; these lemmas characterize
that choice as the longest suffix satisfying the filter.
-/

theorem tails_filter_headD_mem {p : List Char → Bool} {l : List Char}
    (h : l.tails.filter p ≠ []) :
    (l.tails.filter p).headD [] ∈ l.tails.filter p := by
  rw [List.headD_eq_head?, List.head?_eq_head h]
  exact List.head_mem h

theorem tails_filter_spec {p : List Char → Bool} {l : List Char}
    (h : l.tails.filter p ≠ []) :
    p ((l.tails.filter p).headD []) = true ∧ ((l.tails.filter p).headD []) <:+ l := by
  have hmem := tails_filter_headD_mem h
  obtain ⟨h1, h2⟩ := List.mem_filter.mp hmem
  exact ⟨h2, (List.mem_tails _ _).mp h1⟩

theorem tails_filter_longest (p : List Char → Bool) (l : List Char) :
    ∀ t, t <:+ l → p t = true → t.length ≤ ((l.tails.filter p).headD []).length := by
  induction l with
  | nil =>
    intro t ht hp
    rw [List.suffix_nil.mp ht]
    exact Nat.zero_le _
  | cons c l ih =>
    intro t ht hp
    rw [List.tails_cons, List.filter_cons]
    by_cases hc : p (c :: l)
    · rw [if_pos hc]
      simpa using ht.length_le
    · rw [if_neg hc]
      rcases List.suffix_cons_iff.mp ht with h1 | h1
      · subst h1; exact absurd hp hc
      · exact ih t h1 hp

theorem tails_filter_ne_nil {p : List Char → Bool} {l : List Char}
    (h : p [] = true) : l.tails.filter p ≠ [] := by
  intro hcon
  have : ([] : List Char) ∈ l.tails.filter p :=
    List.mem_filter.mpr ⟨(List.mem_tails _ _).mpr List.nil_suffix, h⟩
  rw [hcon] at this
  exact List.not_mem_nil _ this

theorem suffix_eq_of_length {t u s : List Char} (ht : t <:+ s) (hu : u <:+ s)
    (h : t.length = u.length) : t = u :=
  (List.suffix_of_suffix_length_le ht hu h.le).eq_of_length h

theorem suffix_concat_self {u s : List Char} (c : Char) (h : u <:+ s) :
    u ++ [c] <:+ s ++ [c] := by
  obtain ⟨r, hr⟩ := h
  exact ⟨r, by rw [← List.append_assoc, hr]⟩

theorem suffix_concat_decomp {v s : List Char} {c : Char}
    (hv : v <:+ s ++ [c]) (hne : v ≠ []) : ∃ w, v = w ++ [c] ∧ w <:+ s := by
  rw [List.suffix_iff_eq_drop] at hv
  have hlen := List.IsSuffix.length_le (by rw [List.suffix_iff_eq_drop]; exact hv)
  rw [List.length_append, List.length_singleton] at hlen
  have hk : (s ++ [c]).length - v.length ≤ s.length := by
    simp only [List.length_append, List.length_singleton]
    have : 1 ≤ v.length := by
      cases v with
      | nil => exact absurd rfl hne
      | cons x xs => simp
    omega
  refine ⟨s.drop ((s ++ [c]).length - v.length), ?_, List.drop_suffix _ _⟩
  conv_lhs => rw [hv]
  rw [List.drop_append_of_le_length hk]

/-!
### `longSuffix`: the longest trie suffix of a string
-/

theorem longSuffix_filter_ne_nil (a : AhoCorasick) (u : List Char) :
    u.tails.filter (fun t => trieHas a t) ≠ [] :=
  tails_filter_ne_nil (trieHas_nil a)

theorem longSuffix_suffix (a : AhoCorasick) (u : List Char) :
    longSuffix a u <:+ u :=
  (tails_filter_spec (longSuffix_filter_ne_nil a u)).2

theorem longSuffix_trieHas (a : AhoCorasick) (u : List Char) :
    trieHas a (longSuffix a u) = true :=
  (tails_filter_spec (longSuffix_filter_ne_nil a u)).1

theorem longSuffix_longest {a : AhoCorasick} {u t : List Char}
    (ht : t <:+ u) (hp : trieHas a t = true) : t.length ≤ (longSuffix a u).length :=
  tails_filter_longest _ u t ht hp

theorem longSuffix_char {a : AhoCorasick} {u t : List Char} (ht : t <:+ u)
    (hp : trieHas a t = true)
    (hmax : ∀ v, v <:+ u → trieHas a v = true → v.length ≤ t.length) :
    longSuffix a u = t :=
  suffix_eq_of_length (longSuffix_suffix a u) ht
    (Nat.le_antisymm (hmax _ (longSuffix_suffix a u) (longSuffix_trieHas a u))
      (longSuffix_longest ht hp))

theorem longSuffix_of_trieHas {a : AhoCorasick} {u : List Char}
    (h : trieHas a u = true) : longSuffix a u = u :=
  suffix_eq_of_length (longSuffix_suffix a u) (List.suffix_refl u)
    (Nat.le_antisymm (longSuffix_suffix a u).length_le
      (longSuffix_longest (List.suffix_refl u) h))

theorem longSuffix_nil (a : AhoCorasick) : longSuffix a [] = [] :=
  longSuffix_of_trieHas (trieHas_nil a)

/-!
### `failSpec`: the longest proper trie suffix
-/

theorem failSpec_eq_longSuffix_tail (a : AhoCorasick) (c : Char) (l : List Char) :
    failSpec a (c :: l) = longSuffix a l := by
  rw [failSpec, List.tails_cons, longSuffix]
  rfl

theorem failSpec_nil (a : AhoCorasick) : failSpec a [] = [] := rfl

theorem failSpec_suffix {a : AhoCorasick} {s : List Char} (h : s ≠ []) :
    failSpec a s <:+ s ∧ (failSpec a s).length < s.length := by
  cases s with
  | nil => exact absurd rfl h
  | cons c l =>
    rw [failSpec_eq_longSuffix_tail]
    refine ⟨(longSuffix_suffix a l).trans (List.suffix_cons c l), ?_⟩
    have := (longSuffix_suffix a l).length_le
    simp only [List.length_cons]
    omega

theorem failSpec_trieHas {a : AhoCorasick} {s : List Char} (h : s ≠ []) :
    trieHas a (failSpec a s) = true := by
  cases s with
  | nil => exact absurd rfl h
  | cons c l => rw [failSpec_eq_longSuffix_tail]; exact longSuffix_trieHas a l

theorem failSpec_longest {a : AhoCorasick} {s t : List Char}
    (ht : t <:+ s) (hne : t ≠ s) (hp : trieHas a t = true) :
    t.length ≤ (failSpec a s).length := by
  cases s with
  | nil => rw [List.suffix_nil.mp ht]; exact Nat.zero_le _
  | cons c l =>
    rw [failSpec_eq_longSuffix_tail]
    rcases List.suffix_cons_iff.mp ht with h1 | h1
    · exact absurd h1 hne
    · exact longSuffix_longest h1 hp

theorem failSpec_char {a : AhoCorasick} {s t : List Char} (hs : s ≠ [])
    (ht : t <:+ s) (hne : t ≠ s) (hp : trieHas a t = true)
    (hmax : ∀ v, v <:+ s → v ≠ s → trieHas a v = true → v.length ≤ t.length) :
    failSpec a s = t := by
  have h1 := failSpec_suffix (a := a) hs
  have hlen : (failSpec a s).length = t.length :=
    Nat.le_antisymm
      (hmax _ h1.1 (fun hc => by rw [hc] at h1; omega) (failSpec_trieHas hs))
      (failSpec_longest ht hne hp)
  exact suffix_eq_of_length h1.1 ht hlen

/-!
### The failure chain
-/

theorem fsChainF_congr (a : AhoCorasick) :
    ∀ fuel fuel' s, s.length ≤ fuel → s.length ≤ fuel' →
      fsChainF a fuel s = fsChainF a fuel' s := by
  intro fuel
  induction fuel with
  | zero =>
    intro fuel' s hs _
    have : s = [] := List.length_eq_zero.mp (Nat.le_zero.mp hs)
    subst this
    cases fuel' <;> rfl
  | succ fuel ih =>
    intro fuel' s hs hs'
    by_cases hnil : s = []
    · subst hnil; cases fuel' <;> rfl
    · cases fuel' with
      | zero =>
        exact absurd (List.length_eq_zero.mp (Nat.le_zero.mp hs')) hnil
      | succ fuel' =>
        simp only [fsChainF, if_neg hnil]
        have hlt := (failSpec_suffix (a := a) hnil).2
        have h1 : (failSpec a s).length ≤ fuel := by omega
        have h2 : (failSpec a s).length ≤ fuel' := by omega
        rw [ih fuel' (failSpec a s) h1 h2]

theorem fsChain_nil (a : AhoCorasick) : fsChain a [] = [] := rfl

theorem fsChain_unfold {a : AhoCorasick} {s : List Char} (h : s ≠ []) :
    fsChain a s = failSpec a s :: fsChain a (failSpec a s) := by
  obtain ⟨n, hn⟩ : ∃ n, s.length = n + 1 := by
    cases s with
    | nil => exact absurd rfl h
    | cons c l => exact ⟨l.length, rfl⟩
  rw [fsChain, hn, fsChainF, if_neg h, fsChain]
  have hlt := (failSpec_suffix (a := a) h).2
  rw [fsChainF_congr a n (failSpec a s).length (failSpec a s) (by omega) le_rfl]

theorem fsChain_mem {a : AhoCorasick} :
    ∀ {s : List Char}, ∀ t ∈ fsChain a s,
      t <:+ s ∧ t.length < s.length ∧ trieHas a t = true := by
  have key : ∀ n (s : List Char), s.length ≤ n → ∀ t ∈ fsChain a s,
      t <:+ s ∧ t.length < s.length ∧ trieHas a t = true := by
    intro n
    induction n with
    | zero =>
      intro s hs t ht
      rw [List.length_eq_zero.mp (Nat.le_zero.mp hs)] at ht
      exact absurd ht (List.not_mem_nil t)
    | succ n ih =>
      intro s hs t ht
      by_cases hnil : s = []
      · subst hnil; rw [fsChain_nil] at ht; exact absurd ht (List.not_mem_nil t)
      · rw [fsChain_unfold hnil] at ht
        have hfs := failSpec_suffix (a := a) hnil
        rcases List.mem_cons.mp ht with h1 | h1
        · subst h1
          exact ⟨hfs.1, hfs.2, failSpec_trieHas hnil⟩
        · have := ih (failSpec a s) (by omega) t h1
          exact ⟨this.1.trans hfs.1, this.2.1.trans hfs.2, this.2.2⟩
  intro s t ht
  exact key s.length s le_rfl t ht

theorem fsChain_complete {a : AhoCorasick} :
    ∀ {s : List Char}, ∀ {t}, t <:+ s → t ≠ s → trieHas a t = true →
      t ∈ fsChain a s := by
  have key : ∀ n (s : List Char), s.length ≤ n → ∀ {t}, t <:+ s → t ≠ s →
      trieHas a t = true → t ∈ fsChain a s := by
    intro n
    induction n with
    | zero =>
      intro s hs t ht hne _
      rw [List.length_eq_zero.mp (Nat.le_zero.mp hs)] at ht hne
      exact absurd (List.suffix_nil.mp ht) hne
    | succ n ih =>
      intro s hs t ht hne hp
      have hnil : s ≠ [] := by
        intro hc
        subst hc
        exact hne (List.suffix_nil.mp ht)
      rw [fsChain_unfold hnil]
      have hfs := failSpec_suffix (a := a) hnil
      have hlen : t.length ≤ (failSpec a s).length := failSpec_longest ht hne hp
      by_cases heq : t.length = (failSpec a s).length
      · rw [suffix_eq_of_length ht hfs.1 heq]
        exact List.mem_cons_self _ _
      · have hts : t <:+ failSpec a s :=
          List.suffix_of_suffix_length_le ht hfs.1 hlen
        have htne : t ≠ failSpec a s := fun hc => heq (by rw [hc])
        exact List.mem_cons_of_mem _ (ih (failSpec a s) (by omega) hts htne hp)
  intro s t ht hne hp
  exact key s.length s le_rfl ht hne hp

theorem fsChain_nodup (a : AhoCorasick) :
    ∀ {s : List Char}, (fsChain a s).Nodup := by
  have key : ∀ n (s : List Char), s.length ≤ n → (fsChain a s).Nodup := by
    intro n
    induction n with
    | zero =>
      intro s hs
      rw [List.length_eq_zero.mp (Nat.le_zero.mp hs), fsChain_nil]
      exact List.nodup_nil
    | succ n ih =>
      intro s hs
      by_cases hnil : s = []
      · subst hnil; rw [fsChain_nil]; exact List.nodup_nil
      · rw [fsChain_unfold hnil]
        have hfs := failSpec_suffix (a := a) hnil
        refine List.Nodup.cons ?_ ?_
        · intro hmem
          exact absurd rfl (Nat.ne_of_lt (fsChain_mem _ hmem).2.1)
        · exact ih (failSpec a s) (by omega)
  intro s
  exact key s.length s le_rfl

/-!
### `longestExt`
-/

theorem longestExt_some {a : AhoCorasick} {t u : List Char} {c : Char}
    (h : longestExt a t c = some u) :
    u <:+ t ∧ trieHas a u = true ∧ trieHas a (u ++ [c]) = true := by
  have hmem : u ∈ t.tails.filter (fun v => trieHas a v && trieHas a (v ++ [c])) := by
    rw [longestExt] at h
    have := List.mem_of_mem_head? (by rw [h]; exact rfl)
    exact this
  obtain ⟨h1, h2⟩ := List.mem_filter.mp hmem
  rw [Bool.and_eq_true] at h2
  exact ⟨(List.mem_tails _ _).mp h1, h2.1, h2.2⟩

theorem longestExt_longest {a : AhoCorasick} {t u : List Char} {c : Char}
    (h : longestExt a t c = some u) :
    ∀ v, v <:+ t → trieHas a v = true → trieHas a (v ++ [c]) = true →
      v.length ≤ u.length := by
  intro v hv h1 h2
  have := tails_filter_longest (fun v => trieHas a v && trieHas a (v ++ [c])) t v hv
    (by rw [Bool.and_eq_true]; exact ⟨h1, h2⟩)
  rw [List.headD_eq_head?, longestExt] at *
  rw [h] at this
  exact this

theorem longestExt_none {a : AhoCorasick} {t : List Char} {c : Char}
    (h : longestExt a t c = none) :
    ∀ v, v <:+ t → trieHas a v = true → trieHas a (v ++ [c]) = true → False := by
  intro v hv h1 h2
  have hmem : v ∈ t.tails.filter (fun w => trieHas a w && trieHas a (w ++ [c])) :=
    List.mem_filter.mpr ⟨(List.mem_tails _ _).mpr hv, by rw [Bool.and_eq_true]; exact ⟨h1, h2⟩⟩
  rw [longestExt, List.head?_eq_none_iff] at h
  rw [h] at hmem
  exact List.not_mem_nil _ hmem

/-!
### `outStar`
-/

theorem outStarF_congr (a : AhoCorasick) :
    ∀ fuel fuel' s, s.length ≤ fuel → s.length ≤ fuel' →
      outStarF a fuel s = outStarF a fuel' s := by
  intro fuel
  induction fuel with
  | zero =>
    intro fuel' s hs _
    have : s = [] := List.length_eq_zero.mp (Nat.le_zero.mp hs)
    subst this
    cases fuel' <;> rfl
  | succ fuel ih =>
    intro fuel' s hs hs'
    by_cases hnil : s = []
    · subst hnil; cases fuel' <;> rfl
    · cases fuel' with
      | zero =>
        exact absurd (List.length_eq_zero.mp (Nat.le_zero.mp hs')) hnil
      | succ fuel' =>
        simp only [outStarF, if_neg hnil]
        by_cases hf : failSpec a s = []
        · rw [if_pos hf, if_pos hf]
        · rw [if_neg hf, if_neg hf]
          have hlt := (failSpec_suffix (a := a) hnil).2
          rw [ih fuel' (failSpec a s) (by omega) (by omega)]

theorem outStar_nil (a : AhoCorasick) :
    outStar a [] = (getNode a (idxOf a [])).output := rfl

theorem outStar_unfold {a : AhoCorasick} {s : List Char} (h : s ≠ []) :
    outStar a s = (getNode a (idxOf a s)).output ++
      (if failSpec a s = [] then [] else outStar a (failSpec a s)) := by
  obtain ⟨n, hn⟩ : ∃ n, s.length = n + 1 := by
    cases s with
    | nil => exact absurd rfl h
    | cons c l => exact ⟨l.length, rfl⟩
  rw [outStar, hn, outStarF, if_neg h]
  by_cases hf : failSpec a s = []
  · rw [if_pos hf, if_pos hf]
  · rw [if_neg hf, if_neg hf]
    have hlt := (failSpec_suffix (a := a) h).2
    rw [outStar, outStarF_congr a n (failSpec a s).length (failSpec a s) (by omega) le_rfl]

/-- `outStar` is the concatenation of the own outputs of `s` and of every
element of its failure chain except the root. -/
theorem outStar_eq_chain {a : AhoCorasick} :
    ∀ {s : List Char}, s ≠ [] →
      outStar a s = (getNode a (idxOf a s)).output ++
        ((fsChain a s).filter (fun t => !t.isEmpty)).flatMap
          (fun t => (getNode a (idxOf a t)).output) := by
  have key : ∀ n (s : List Char), s.length ≤ n → s ≠ [] →
      outStar a s = (getNode a (idxOf a s)).output ++
        ((fsChain a s).filter (fun t => !t.isEmpty)).flatMap
          (fun t => (getNode a (idxOf a t)).output) := by
    intro n
    induction n with
    | zero =>
      intro s hs hnil
      exact absurd (List.length_eq_zero.mp (Nat.le_zero.mp hs)) hnil
    | succ n ih =>
      intro s hs hnil
      rw [outStar_unfold hnil, fsChain_unfold hnil]
      have hlt := (failSpec_suffix (a := a) hnil).2
      by_cases hf : failSpec a s = []
      · rw [if_pos hf, hf]
        simp [fsChain_nil]
      · rw [if_neg hf, List.filter_cons_of_pos (by simp [hf]),
          List.flatMap_cons, ih (failSpec a s) (by omega) hf]
  intro s h
  exact key s.length s le_rfl h

/-!
### One-step bridges: extending a string by one character
-/

theorem failSpec_concat {a : AhoCorasick} {s : List Char} (c : Char) (hs : s ≠ []) :
    failSpec a (s ++ [c]) =
      (match longestExt a (failSpec a s) c with
       | some u => u ++ [c]
       | none => []) := by
  have hsc : s ++ [c] ≠ [] := by simp
  cases hle : longestExt a (failSpec a s) c with
  | none =>
    apply failSpec_char hsc List.nil_suffix (Ne.symm hsc) (trieHas_nil a)
    intro v hv hvne hvp
    by_cases hvnil : v = []
    · simp [hvnil]
    · obtain ⟨w, rfl, hw⟩ := suffix_concat_decomp hv hvnil
      have hwp : trieHas a w = true := trieHas_of_append hvp
      have hwne : w ≠ s := fun h => hvne (by rw [h])
      have hwlen : w.length ≤ (failSpec a s).length := failSpec_longest hw hwne hwp
      have hwfs : w <:+ failSpec a s :=
        List.suffix_of_suffix_length_le hw (failSpec_suffix hs).1 hwlen
      exact (longestExt_none hle w hwfs hwp hvp).elim
  | some u =>
    obtain ⟨hu1, hu2, hu3⟩ := longestExt_some hle
    have hus : u <:+ s := hu1.trans (failSpec_suffix hs).1
    have hulen : u.length ≤ (failSpec a s).length := hu1.length_le
    have hslen : (failSpec a s).length < s.length := (failSpec_suffix (a := a) hs).2
    apply failSpec_char hsc (suffix_concat_self c hus) ?_ hu3
    · intro v hv hvne hvp
      by_cases hvnil : v = []
      · simp [hvnil]
      · obtain ⟨w, rfl, hw⟩ := suffix_concat_decomp hv hvnil
        have hwp : trieHas a w = true := trieHas_of_append hvp
        have hwne : w ≠ s := fun h => hvne (by rw [h])
        have hwlen : w.length ≤ (failSpec a s).length := failSpec_longest hw hwne hwp
        have hwfs : w <:+ failSpec a s :=
          List.suffix_of_suffix_length_le hw (failSpec_suffix hs).1 hwlen
        have := longestExt_longest hle w hwfs hwp hvp
        simp only [List.length_append, List.length_singleton]
        omega
    · intro h
      have := congrArg List.length h
      simp only [List.length_append, List.length_singleton] at this
      omega

theorem longSuffix_concat (a : AhoCorasick) (u : List Char) (c : Char) :
    longSuffix a (u ++ [c]) =
      (match longestExt a (longSuffix a u) c with
       | some w => w ++ [c]
       | none => []) := by
  cases hle : longestExt a (longSuffix a u) c with
  | none =>
    apply longSuffix_char List.nil_suffix (trieHas_nil a)
    intro v hv hvp
    by_cases hvnil : v = []
    · simp [hvnil]
    · obtain ⟨w, rfl, hw⟩ := suffix_concat_decomp hv hvnil
      have hwp : trieHas a w = true := trieHas_of_append hvp
      have hwls : w <:+ longSuffix a u :=
        List.suffix_of_suffix_length_le hw (longSuffix_suffix a u) (longSuffix_longest hw hwp)
      exact (longestExt_none hle w hwls hwp hvp).elim
  | some w =>
    obtain ⟨hw1, hw2, hw3⟩ := longestExt_some hle
    have hwu : w <:+ u := hw1.trans (longSuffix_suffix a u)
    apply longSuffix_char (suffix_concat_self c hwu) hw3
    intro v hv hvp
    by_cases hvnil : v = []
    · simp [hvnil]
    · obtain ⟨x, rfl, hx⟩ := suffix_concat_decomp hv hvnil
      have hxp : trieHas a x = true := trieHas_of_append hvp
      have hxls : x <:+ longSuffix a u :=
        List.suffix_of_suffix_length_le hx (longSuffix_suffix a u) (longSuffix_longest hx hxp)
      have := longestExt_longest hle x hxls hxp hvp
      simp only [List.length_append, List.length_singleton]
      omega

/-!
## The trie after insertion
-/

theorem childLookup_none_not_mem {L : List (Char × Nat)} {c : Char}
    (h : childLookup L c = none) : c ∉ L.map Prod.fst := by
  induction L with
  | nil => simp
  | cons hd tl ih =>
    obtain ⟨c', j⟩ := hd
    by_cases hc : c' = c
    · simp [childLookup, hc] at h
    · simp only [childLookup, if_neg hc] at h
      simp only [List.map_cons, List.mem_cons]
      intro hmem
      rcases hmem with h1 | h1
      · exact hc h1.symm
      · exact ih h h1

theorem nodeAt_lt {a : AhoCorasick} (W : StructWF a) {s : List Char} {j : Nat}
    (h : nodeAt a s = some j) : j < a.nodes.length := by
  rcases List.eq_nil_or_concat s with rfl | ⟨s', c, rfl⟩
  · rw [nodeAt_nil] at h
    cases h
    exact W.len_pos
  · rw [List.concat_eq_append, nodeAt_concat] at h
    cases hs : nodeAt a s' with
    | none => rw [hs] at h; cases h
    | some i =>
      rw [hs] at h
      exact (W.child_lt i c j h).1

theorem nodeAt_ne_zero {a : AhoCorasick} (W : StructWF a) {s : List Char} {j : Nat}
    (hne : s ≠ []) (h : nodeAt a s = some j) : j ≠ 0 := by
  rcases List.eq_nil_or_concat s with rfl | ⟨s', c, rfl⟩
  · exact absurd rfl hne
  · rw [List.concat_eq_append, nodeAt_concat] at h
    cases hs : nodeAt a s' with
    | none => rw [hs] at h; cases h
    | some i =>
      rw [hs] at h
      exact (W.child_lt i c j h).2

/-- The one-node-extension step of `addPatternLoop`: linking a fresh node
`n = a.nodes.length` under `cur` by character `c` adds exactly the string
`s₀ ++ [c]` to the trie. -/
theorem nodeAt_extend {a : AhoCorasick} (W : StructWF a) {s₀ : List Char} {cur : Nat}
    (hcur : nodeAt a s₀ = some cur) {c : Char}
    (hnone : childLookup (getNode a cur).children c = none) :
    ∀ s, nodeAt (setNode { nodes := a.nodes ++ [newNode] } cur
        (fun n => { n with children := n.children ++ [(c, a.nodes.length)] })) s =
      if s = s₀ ++ [c] then some a.nodes.length else nodeAt a s := by
  set n := a.nodes.length with hn
  set a' := setNode { nodes := a.nodes ++ [newNode] } cur
      (fun nd => { nd with children := nd.children ++ [(c, n)] }) with ha'
  have hcurlt : cur < a.nodes.length := nodeAt_lt W hcur
  have hget_cur : getNode a' cur = { getNode a cur with
      children := (getNode a cur).children ++ [(c, n)] } := by
    rw [ha']
    have h1 : getNode { nodes := a.nodes ++ [newNode] } cur = getNode a cur := by
      simp [getNode, List.getD_eq_getElem?_getD, List.getElem?_append_left hcurlt]
    rw [getNode_setNode_self (by simp; omega), h1]
  have hget_old : ∀ k, k < a.nodes.length → k ≠ cur → getNode a' k = getNode a k := by
    intro k hk hkc
    rw [ha', getNode_setNode_ne (Ne.symm hkc)]
    simp [getNode, List.getD_eq_getElem?_getD, List.getElem?_append_left hk]
  have hget_n : getNode a' n = newNode := by
    rw [ha', getNode_setNode_ne (Nat.ne_of_lt hcurlt)]
    simp [getNode, List.getD_eq_getElem?_getD, hn]
  intro s
  induction s using List.reverseRecOn with
  | nil =>
    rw [nodeAt_nil, if_neg (by simp)]
    exact (nodeAt_nil a').symm ▸ rfl
  | append_singleton s' d ih =>
    rw [nodeAt_concat, ih, nodeAt_concat]
    by_cases hs' : s' = s₀ ++ [c]
    · rw [if_pos hs']
      have hsne : s' ++ [d] ≠ s₀ ++ [c] := by
        intro hcon
        have := congrArg List.length hcon
        rw [hs'] at this
        simp at this
      rw [if_neg hsne]
      have h0 : nodeAt a s' = none := by
        rw [hs', nodeAt_concat, hcur]
        simp [hnone]
      rw [h0]
      simp only [Option.some_bind, Option.none_bind]
      rw [hget_n]
      rfl
    · rw [if_neg hs']
      cases hsv : nodeAt a s' with
      | none =>
        have hne2 : s' ++ [d] ≠ s₀ ++ [c] := by
          intro hcon
          obtain ⟨h1, _⟩ := List.append_inj' hcon (by simp)
          rw [h1, hcur] at hsv
          cases hsv
        rw [if_neg hne2]
        rfl
      | some j =>
        by_cases hj : j = cur
        · rw [hj] at hsv
          have hs0 : s' = s₀ := W.inj _ _ _ hsv hcur
          subst hs0
          rw [hj]
          simp only [Option.some_bind]
          rw [hget_cur]
          by_cases hd : d = c
          · subst hd
            rw [if_pos rfl]
            rw [childLookup_append_right hnone, if_pos rfl]
          · have hne3 : s' ++ [d] ≠ s' ++ [c] := by
              intro hcon
              exact hd (by simpa using hcon)
            rw [if_neg hne3]
            cases hcl : childLookup (getNode a cur).children d with
            | none =>
              rw [childLookup_append_right hcl, if_neg (fun hc => hd hc.symm)]
            | some k =>
              rw [childLookup_append_left hcl]
        · have hne2 : s' ++ [d] ≠ s₀ ++ [c] := by
            intro hcon
            obtain ⟨h1, _⟩ := List.append_inj' hcon (by simp)
            subst h1
            exact hj (Option.some.inj (hsv.symm.trans hcur))
          rw [if_neg hne2]
          simp only [Option.some_bind]
          rw [hget_old j (nodeAt_lt W hsv) hj]

theorem extend_length {a : AhoCorasick} (cur : Nat) (c : Char) :
    (setNode { nodes := a.nodes ++ [newNode] } cur
      (fun n => { n with children := n.children ++ [(c, a.nodes.length)] })).nodes.length =
      a.nodes.length + 1 := by
  rw [setNode_length]
  simp

theorem extend_fields {a : AhoCorasick} {cur : Nat} (hcurlt : cur < a.nodes.length) (c : Char) :
    ∀ j, (getNode (setNode { nodes := a.nodes ++ [newNode] } cur
        (fun n => { n with children := n.children ++ [(c, a.nodes.length)] })) j).output =
          (getNode a j).output ∧
      (getNode (setNode { nodes := a.nodes ++ [newNode] } cur
        (fun n => { n with children := n.children ++ [(c, a.nodes.length)] })) j).fail =
          (getNode a j).fail := by
  set n := a.nodes.length with hn
  set a' := setNode { nodes := a.nodes ++ [newNode] } cur
      (fun nd => { nd with children := nd.children ++ [(c, n)] }) with ha'
  intro j
  by_cases hj : j = cur
  · subst hj
    have h1 : getNode { nodes := a.nodes ++ [newNode] } j = getNode a j := by
      simp [getNode, List.getD_eq_getElem?_getD, List.getElem?_append_left hcurlt]
    rw [ha', getNode_setNode_self (by simp; omega), h1]
    exact ⟨rfl, rfl⟩
  · rw [ha', getNode_setNode_ne (Ne.symm hj)]
    by_cases hlt : j < a.nodes.length
    · simp [getNode, List.getD_eq_getElem?_getD, List.getElem?_append_left hlt]
    · by_cases hej : j = n
      · have h2 : getNode { nodes := a.nodes ++ [newNode] } j = newNode := by
          simp [getNode, List.getD_eq_getElem?_getD, hej, hn]
        have h3 : getNode a j = newNode := getNode_of_le (by omega)
        rw [h2, h3]
        exact ⟨rfl, rfl⟩
      · have h2 : getNode { nodes := a.nodes ++ [newNode] } j = newNode := by
          apply getNode_of_le
          simp
          omega
        have h3 : getNode a j = newNode := getNode_of_le (by omega)
        rw [h2, h3]
        exact ⟨rfl, rfl⟩

theorem extend_structWF {a : AhoCorasick} (W : StructWF a) {s₀ : List Char} {cur : Nat}
    (hcur : nodeAt a s₀ = some cur) {c : Char}
    (hnone : childLookup (getNode a cur).children c = none) :
    StructWF (setNode { nodes := a.nodes ++ [newNode] } cur
      (fun n => { n with children := n.children ++ [(c, a.nodes.length)] })) := by
  set n := a.nodes.length with hn
  set a' := setNode { nodes := a.nodes ++ [newNode] } cur
      (fun nd => { nd with children := nd.children ++ [(c, n)] }) with ha'
  have hchar := nodeAt_extend W hcur hnone
  rw [← ha'] at hchar
  have hcurlt : cur < a.nodes.length := nodeAt_lt W hcur
  have hlen : a'.nodes.length = a.nodes.length + 1 := by
    rw [ha']; exact extend_length cur c
  have hget_cur : getNode a' cur = { getNode a cur with
      children := (getNode a cur).children ++ [(c, n)] } := by
    rw [ha']
    have h1 : getNode { nodes := a.nodes ++ [newNode] } cur = getNode a cur := by
      simp [getNode, List.getD_eq_getElem?_getD, List.getElem?_append_left hcurlt]
    rw [getNode_setNode_self (by simp; omega), h1]
  have hget_old : ∀ k, k ≠ cur → k < a.nodes.length → getNode a' k = getNode a k := by
    intro k hkc hk
    rw [ha', getNode_setNode_ne (Ne.symm hkc)]
    simp [getNode, List.getD_eq_getElem?_getD, List.getElem?_append_left hk]
  have hget_hi : ∀ k, a.nodes.length ≤ k → (getNode a' k).children = [] := by
    intro k hk
    by_cases hkc : k = cur
    · omega
    · rw [ha', getNode_setNode_ne (Ne.symm hkc)]
      by_cases hkn : k = n
      · subst hkn
        simp [getNode, List.getD_eq_getElem?_getD, hn, newNode]
      · have : getNode { nodes := a.nodes ++ [newNode] } k = newNode := by
          apply getNode_of_le
          simp
          omega
        rw [this]
        rfl
  constructor
  · intro s t j hs ht
    rw [hchar] at hs ht
    by_cases h1 : s = s₀ ++ [c] <;> by_cases h2 : t = s₀ ++ [c]
    · rw [h1, h2]
    · rw [if_pos h1] at hs
      rw [if_neg h2] at ht
      cases hs
      exact absurd (nodeAt_lt W ht) (by omega)
    · rw [if_neg h1] at hs
      rw [if_pos h2] at ht
      cases ht
      exact absurd (nodeAt_lt W hs) (by omega)
    · rw [if_neg h1] at hs
      rw [if_neg h2] at ht
      exact W.inj s t j hs ht
  · intro j hj
    rw [hlen] at hj
    by_cases hjn : j = n
    · refine ⟨s₀ ++ [c], ?_⟩
      rw [hchar, if_pos rfl, hjn]
    · obtain ⟨s, hs⟩ := W.surj j (by omega)
      refine ⟨s, ?_⟩
      have hsne : s ≠ s₀ ++ [c] := by
        intro hcon
        rw [hcon, nodeAt_concat, hcur] at hs
        simp [hnone] at hs
      rw [hchar, if_neg hsne]
      exact hs
  · intro i d j hcl
    by_cases hic : i = cur
    · subst hic
      rw [hget_cur] at hcl
      simp only at hcl
      cases hold : childLookup (getNode a i).children d with
      | some k =>
        rw [childLookup_append_left hold] at hcl
        cases hcl
        have := W.child_lt i d j hold
        omega
      | none =>
        rw [childLookup_append_right hold] at hcl
        by_cases hcd : c = d
        · rw [if_pos hcd] at hcl
          cases hcl
          constructor
          · omega
          · have := W.len_pos
            omega
        · rw [if_neg hcd] at hcl
          cases hcl
    · by_cases hilt : i < a.nodes.length
      · rw [hget_old i hic hilt] at hcl
        have := W.child_lt i d j hcl
        omega
      · rw [hget_hi i (by omega)] at hcl
        cases hcl
  · intro i
    by_cases hic : i = cur
    · subst hic
      rw [hget_cur]
      simp only [List.map_append]
      rw [List.nodup_append]
      refine ⟨W.keys_nodup i, by simp, ?_⟩
      intro x hx hx2
      simp at hx2
      subst hx2
      exact childLookup_none_not_mem hnone hx
    · by_cases hilt : i < a.nodes.length
      · rw [hget_old i hic hilt]
        exact W.keys_nodup i
      · rw [hget_hi i (by omega)]
        exact List.nodup_nil
  · rw [hlen]
    omega

/-- Full behaviour of the trie-walking loop of `AddPattern`: starting at the
node for `s₀`, consuming `cs` adds to the trie exactly the extensions of
`s₀` by prefixes of `cs`, changes no index of an existing string, no output
and no failure link, and returns the node for `s₀ ++ cs`. -/
theorem addPatternLoop_spec :
    ∀ (cs : List Char) (a : AhoCorasick) (s₀ : List Char) (cur : Nat),
      StructWF a → nodeAt a s₀ = some cur →
      StructWF (addPatternLoop a cur cs).1 ∧
      a.nodes.length ≤ (addPatternLoop a cur cs).1.nodes.length ∧
      (∀ s, (nodeAt a s).isSome → nodeAt (addPatternLoop a cur cs).1 s = nodeAt a s) ∧
      (∀ s, (nodeAt (addPatternLoop a cur cs).1 s).isSome ↔
        ((nodeAt a s).isSome ∨ ∃ t, t <+: cs ∧ s = s₀ ++ t)) ∧
      nodeAt (addPatternLoop a cur cs).1 (s₀ ++ cs) = some (addPatternLoop a cur cs).2 ∧
      (∀ j, (getNode (addPatternLoop a cur cs).1 j).output = (getNode a j).output ∧
        (getNode (addPatternLoop a cur cs).1 j).fail = (getNode a j).fail) := by
  intro cs
  induction cs with
  | nil =>
    intro a s₀ cur W hcur
    refine ⟨W, le_rfl, fun s _ => rfl, ?_, ?_, fun j => ⟨rfl, rfl⟩⟩
    · intro s
      constructor
      · intro h
        exact Or.inl h
      · rintro (h | ⟨t, ht, rfl⟩)
        · exact h
        · rw [List.prefix_nil.mp ht, List.append_nil]
          show (nodeAt a s₀).isSome = true
          rw [hcur]
          rfl
    · rw [List.append_nil]
      exact hcur
  | cons c cs ih =>
    intro a s₀ cur W hcur
    cases hcl : childLookup (getNode a cur).children c with
    | some j =>
      have hstep : addPatternLoop a cur (c :: cs) = addPatternLoop a j cs := by
        rw [addPatternLoop, hcl]
      have hnext : nodeAt a (s₀ ++ [c]) = some j := by
        rw [nodeAt_concat, hcur]
        simp [hcl]
      obtain ⟨W', hle, hpres, hmem, hfinal, hfields⟩ := ih a (s₀ ++ [c]) j W hnext
      rw [hstep]
      refine ⟨W', hle, hpres, ?_, ?_, hfields⟩
      · intro s
        rw [hmem s]
        constructor
        · rintro (h | ⟨t, ht, rfl⟩)
          · exact Or.inl h
          · exact Or.inr ⟨c :: t, List.cons_prefix_cons.mpr ⟨rfl, ht⟩, by simp⟩
        · rintro (h | ⟨t, ht, rfl⟩)
          · exact Or.inl h
          · rcases t with _ | ⟨d, t'⟩
            · rw [List.append_nil]
              exact Or.inl (by rw [hcur]; rfl)
            · obtain ⟨hd, ht'⟩ := List.cons_prefix_cons.mp ht
              subst hd
              exact Or.inr ⟨t', ht', by simp⟩
      · rw [show s₀ ++ (c :: cs) = (s₀ ++ [c]) ++ cs by simp]
        exact hfinal
    | none =>
      have hstep : addPatternLoop a cur (c :: cs) =
          addPatternLoop (setNode { nodes := a.nodes ++ [newNode] } cur
            (fun n => { n with children := n.children ++ [(c, a.nodes.length)] }))
            a.nodes.length cs := by
        rw [addPatternLoop, hcl]
      set a' := setNode { nodes := a.nodes ++ [newNode] } cur
          (fun nd => { nd with children := nd.children ++ [(c, a.nodes.length)] }) with ha'
      have hchar := nodeAt_extend W hcur hcl
      rw [← ha'] at hchar
      have W' : StructWF a' := extend_structWF W hcur hcl
      have hfields' := extend_fields (nodeAt_lt W hcur) (a := a) c
      rw [← ha'] at hfields'
      have hlen' : a'.nodes.length = a.nodes.length + 1 := by
        rw [ha']; exact extend_length cur c
      have hnext : nodeAt a' (s₀ ++ [c]) = some a.nodes.length := by
        rw [hchar, if_pos rfl]
      obtain ⟨W'', hle, hpres, hmem, hfinal, hfields⟩ :=
        ih a' (s₀ ++ [c]) a.nodes.length W' hnext
      rw [hstep]
      refine ⟨W'', by omega, ?_, ?_, ?_, ?_⟩
      · intro s hs
        have hsne : s ≠ s₀ ++ [c] := by
          intro hcon
          rw [hcon, nodeAt_concat, hcur] at hs
          simp [hcl] at hs
        have h1 : nodeAt a' s = nodeAt a s := by rw [hchar, if_neg hsne]
        rw [hpres s (by rw [h1]; exact hs), h1]
      · intro s
        rw [hmem s, hchar]
        constructor
        · rintro (h | ⟨t, ht, rfl⟩)
          · by_cases hsc : s = s₀ ++ [c]
            · exact Or.inr ⟨[c], by simp, hsc⟩
            · rw [if_neg hsc] at h
              exact Or.inl h
          · exact Or.inr ⟨c :: t, List.cons_prefix_cons.mpr ⟨rfl, ht⟩, by simp⟩
        · rintro (h | ⟨t, ht, rfl⟩)
          · left
            have hsne : s ≠ s₀ ++ [c] := by
              intro hcon
              rw [hcon, nodeAt_concat, hcur] at h
              simp [hcl] at h
            rw [if_neg hsne]
            exact h
          · rcases t with _ | ⟨d, t'⟩
            · left
              rw [List.append_nil]
              have hne : s₀ ≠ s₀ ++ [c] := by
                intro hcon
                have := congrArg List.length hcon
                simp at this
              rw [if_neg hne, hcur]
              rfl
            · obtain ⟨hd, ht'⟩ := List.cons_prefix_cons.mp ht
              subst hd
              exact Or.inr ⟨t', ht', by simp⟩
      · rw [show s₀ ++ (c :: cs) = (s₀ ++ [c]) ++ cs by simp]
        exact hfinal
      · intro j
        obtain ⟨h1, h2⟩ := hfields j
        obtain ⟨h3, h4⟩ := hfields' j
        exact ⟨h1.trans h3, h2.trans h4⟩

theorem structWF_of_children_eq {a b : AhoCorasick}
    (hlen : b.nodes.length = a.nodes.length)
    (hch : ∀ k, (getNode b k).children = (getNode a k).children)
    (W : StructWF a) : StructWF b := by
  have hnode : ∀ s, nodeAt b s = nodeAt a s := nodeAt_congr hch
  constructor
  · intro s t j hs ht
    exact W.inj s t j (by rw [← hnode s]; exact hs) (by rw [← hnode t]; exact ht)
  · intro j hj
    obtain ⟨s, hs⟩ := W.surj j (by omega)
    exact ⟨s, by rw [hnode s]; exact hs⟩
  · intro i c j hcl
    rw [hch i] at hcl
    obtain ⟨h1, h2⟩ := W.child_lt i c j hcl
    exact ⟨by omega, h2⟩
  · intro i
    rw [hch i]
    exact W.keys_nodup i
  · have := W.len_pos
    omega

theorem pfxIn_append_singleton {P : List (List Char)} {p s : List Char} :
    pfxIn (P ++ [p]) s ↔ pfxIn P s ∨ s <+: p := by
  constructor
  · rintro (rfl | ⟨q, hq, hsq⟩)
    · exact Or.inl (Or.inl rfl)
    · rcases List.mem_append.mp hq with h | h
      · exact Or.inl (Or.inr ⟨q, h, hsq⟩)
      · rw [List.mem_singleton.mp h] at hsq
        exact Or.inr hsq
  · rintro ((rfl | ⟨q, hq, hsq⟩) | h)
    · exact Or.inl rfl
    · exact Or.inr ⟨q, List.mem_append_left _ hq, hsq⟩
    · exact Or.inr ⟨p, List.mem_append_right _ (List.mem_singleton_self p), h⟩

theorem mem_of_pfx_self {P : List (List Char)} {p : List Char} (h : p ∈ P) : pfxIn P p :=
  Or.inr ⟨p, h, List.prefix_refl p⟩

theorem AddPattern_wf {P : List (List Char)} {a : AhoCorasick}
    (W : TrieWF P a) (p : List Char) : TrieWF (P ++ [p]) (AddPattern a p) := by
  obtain ⟨W', hle, hpres, hmem, hfinal, hfields⟩ :=
    addPatternLoop_spec p a [] 0 W.str (nodeAt_nil a)
  rw [List.nil_append] at hfinal
  set r := addPatternLoop a 0 p with hr
  have hterm_lt : r.2 < r.1.nodes.length := nodeAt_lt W' hfinal
  set b := setNode r.1 r.2 (fun n => { n with output := n.output ++ [p] }) with hb
  have hAP : AddPattern a p = b := rfl
  have hch : ∀ k, (getNode b k).children = (getNode r.1 k).children := by
    intro k
    by_cases hk : k = r.2
    · rw [hb, hk, getNode_setNode_self hterm_lt]
    · rw [hb, getNode_setNode_ne (Ne.symm hk)]
  have hfail : ∀ k, (getNode b k).fail = (getNode r.1 k).fail := by
    intro k
    by_cases hk : k = r.2
    · rw [hb, hk, getNode_setNode_self hterm_lt]
    · rw [hb, getNode_setNode_ne (Ne.symm hk)]
  have hout : ∀ k, k ≠ r.2 → (getNode b k).output = (getNode r.1 k).output := by
    intro k hk
    rw [hb, getNode_setNode_ne (Ne.symm hk)]
  have hout2 : (getNode b r.2).output = (getNode r.1 r.2).output ++ [p] := by
    rw [hb, getNode_setNode_self hterm_lt]
  have hblen : b.nodes.length = r.1.nodes.length := by rw [hb, setNode_length]
  have hnode : ∀ s, nodeAt b s = nodeAt r.1 s := nodeAt_congr hch
  have hWb : StructWF b := structWF_of_children_eq hblen hch W'
  rw [hAP]
  have hnotin_ge : ∀ s j, nodeAt r.1 s = some j → ¬(nodeAt a s).isSome →
      a.nodes.length ≤ j := by
    intro s j hs hnot
    by_contra hlt
    obtain ⟨s', hs'⟩ := W.str.surj j (by omega)
    have : nodeAt r.1 s' = some j := by
      rw [hpres s' (by rw [hs']; rfl)]
      exact hs'
    rw [W'.inj s' s j this hs] at hs'
    exact hnot (by rw [hs']; rfl)
  constructor
  · exact hWb
  · intro s
    rw [hnode s, hmem s, pfxIn_append_singleton, W.mem_iff s]
    constructor
    · rintro (h | ⟨t, ht, rfl⟩)
      · exact Or.inl h
      · exact Or.inr ht
    · rintro (h | h)
      · exact Or.inl h
      · exact Or.inr ⟨s, h, (List.nil_append s).symm⟩
  · intro s j hs
    rw [hnode s] at hs
    by_cases hj : j = r.2
    · rw [hj] at hs
      have hsp : s = p := W'.inj s p r.2 hs hfinal
      subst hsp
      rw [hj, hout2, (hfields r.2).1]
      rw [List.count_append, List.count_singleton]
      by_cases hin : (nodeAt a s).isSome
      · have hsa : nodeAt a s = some r.2 := by rw [← hpres s hin]; exact hs
        rw [W.output_eq s r.2 hsa]
        simp [List.replicate_succ']
      · have hge := hnotin_ge s r.2 hs hin
        rw [getNode_of_le hge]
        have hcnt : P.count s = 0 := by
          apply List.count_eq_zero_of_not_mem
          intro hmem2
          exact hin (by rw [W.mem_iff]; exact mem_of_pfx_self hmem2)
        rw [hcnt]
        simp [newNode]
    · have hsp : s ≠ p := by
        intro hcon
        subst hcon
        rw [hs] at hfinal
        exact hj (Option.some.inj hfinal)
      rw [hout j hj, (hfields j).1]
      rw [List.count_append, List.count_singleton]
      rw [if_neg (by simp [Ne.symm]; exact fun hc => hsp hc.symm)]
      by_cases hin : (nodeAt a s).isSome
      · have hsa : nodeAt a s = some j := by rw [← hpres s hin]; exact hs
        rw [W.output_eq s j hsa]
        simp
      · have hge := hnotin_ge s j hs hin
        rw [getNode_of_le hge]
        have hcnt : P.count s = 0 := by
          apply List.count_eq_zero_of_not_mem
          intro hmem2
          exact hin (by rw [W.mem_iff]; exact mem_of_pfx_self hmem2)
        rw [hcnt]
        simp [newNode]
  · intro i
    rw [hfail i, (hfields i).2]
    exact W.fail_none i

theorem nodeAt_newAho (s : List Char) :
    nodeAt NewAhoCorasick s = if s = [] then some 0 else none := by
  cases s with
  | nil => rfl
  | cons c cs =>
    rw [if_neg (by simp)]
    rw [nodeAt, walkFrom_cons]
    have : getNode NewAhoCorasick 0 = newNode := rfl
    rw [this]
    rfl

theorem newAho_wf : TrieWF [] NewAhoCorasick := by
  have hget : ∀ i, getNode NewAhoCorasick i = newNode := by
    intro i
    cases i with
    | zero => rfl
    | succ n =>
      apply getNode_of_le
      show 1 ≤ n + 1
      omega
  constructor
  · constructor
    · intro s t j hs ht
      rw [nodeAt_newAho] at hs ht
      by_cases h1 : s = [] <;> by_cases h2 : t = []
      · rw [h1, h2]
      · rw [if_neg h2] at ht; cases ht
      · rw [if_neg h1] at hs; cases hs
      · rw [if_neg h1] at hs; cases hs
    · intro j hj
      have : j = 0 := by
        show j = 0
        have : NewAhoCorasick.nodes.length = 1 := rfl
        omega
      exact ⟨[], by rw [this]; rfl⟩
    · intro i c j hcl
      rw [hget i] at hcl
      cases hcl
    · intro i
      rw [hget i]
      exact List.nodup_nil
    · show 0 < 1
      omega
  · intro s
    rw [nodeAt_newAho]
    constructor
    · intro h
      by_cases h1 : s = []
      · exact Or.inl h1
      · rw [if_neg h1] at h; cases h
    · rintro (rfl | ⟨q, hq, _⟩)
      · rfl
      · cases hq
  · intro s j hs
    rw [nodeAt_newAho] at hs
    by_cases h1 : s = []
    · subst h1
      rw [if_pos rfl] at hs
      cases hs
      rw [hget 0]
      rfl
    · rw [if_neg h1] at hs; cases hs
  · intro i
    rw [hget i]
    rfl

theorem foldl_AddPattern_wf :
    ∀ (P Q : List (List Char)) (a : AhoCorasick), TrieWF Q a →
      TrieWF (Q ++ P) (P.foldl AddPattern a) := by
  intro P
  induction P with
  | nil =>
    intro Q a W
    rw [List.append_nil]
    exact W
  | cons p P ih =>
    intro Q a W
    rw [List.foldl_cons]
    have := ih (Q ++ [p]) (AddPattern a p) (AddPattern_wf W p)
    rw [List.append_assoc] at this
    simpa using this

/-- The arena built by `insertAll` satisfies the full trie characterization. -/
theorem insertAll_wf (P : List (List Char)) : TrieWF P (insertAll P) := by
  have := foldl_AddPattern_wf P [] NewAhoCorasick newAho_wf
  rw [List.nil_append] at this
  exact this

/-- C6 amended.  Re-inserting an already-inserted pattern appends a second
copy instead of leaving the automaton unchanged: for every pattern `p`, two
`AddPattern p` calls on a fresh automaton leave the terminal node's output
list holding `p` exactly twice. -/
theorem c6_amended : ∀ p : List Char, ∃ j,
    nodeAt (AddPattern (AddPattern NewAhoCorasick p) p) p = some j ∧
    (getNode (AddPattern (AddPattern NewAhoCorasick p) p) j).output = [p, p] := by
  intro p
  have W := insertAll_wf [p, p]
  have hmem : (nodeAt (insertAll [p, p]) p).isSome := by
    rw [W.mem_iff]
    exact mem_of_pfx_self (by simp)
  obtain ⟨j, hj⟩ := Option.isSome_iff_exists.mp hmem
  refine ⟨j, hj, ?_⟩
  show (getNode (insertAll [p, p]) j).output = [p, p]
  rw [W.output_eq p j hj]
  have hc : List.count p [p, p] = 2 := by simp
  rw [hc]
  rfl

/-!
## Supporting lemmas for the BFS characterization
-/

theorem trieHas_nodeAt {a : AhoCorasick} {s : List Char} (h : trieHas a s = true) :
    nodeAt a s = some (idxOf a s) := by
  rw [trieHas] at h
  obtain ⟨j, hj⟩ := Option.isSome_iff_exists.mp h
  rw [idxOf, hj]
  rfl

theorem idxOf_inj {a : AhoCorasick} (W : StructWF a) {s t : List Char}
    (hs : trieHas a s = true) (ht : trieHas a t = true)
    (h : idxOf a s = idxOf a t) : s = t :=
  W.inj s t (idxOf a t) (h ▸ trieHas_nodeAt hs) (trieHas_nodeAt ht)

theorem childLookup_of_mem {L : List (Char × Nat)} {c : Char} {j : Nat}
    (hnd : (L.map Prod.fst).Nodup) (hmem : (c, j) ∈ L) :
    childLookup L c = some j := by
  induction L with
  | nil => cases hmem
  | cons hd tl ih =>
    obtain ⟨c', j'⟩ := hd
    rcases List.mem_cons.mp hmem with h1 | h1
    · cases h1
      simp [childLookup]
    · have h2 : c' ≠ c := by
        intro hcon
        subst hcon
        have : c' ∈ tl.map Prod.fst := List.mem_map.mpr ⟨(c', j), h1, rfl⟩
        exact (List.nodup_cons.mp hnd).1 this
      simp only [childLookup, if_neg h2]
      exact ih (List.nodup_cons.mp hnd).2 h1

theorem child_mem_iff {a : AhoCorasick} (W : StructWF a) {s : List Char}
    (hs : trieHas a s = true) (c : Char) (j : Nat) :
    ((c, j) ∈ (getNode a (idxOf a s)).children ↔ nodeAt a (s ++ [c]) = some j) := by
  constructor
  · intro hmem
    rw [nodeAt_concat, trieHas_nodeAt hs]
    simp only [Option.some_bind]
    exact childLookup_of_mem (W.keys_nodup _) hmem
  · intro hna
    rw [nodeAt_concat, trieHas_nodeAt hs] at hna
    simp only [Option.some_bind] at hna
    exact childLookup_mem hna

theorem trieHas_concat_child {a : AhoCorasick} {s : List Char}
    (hs : trieHas a s = true) (c : Char) :
    childLookup (getNode a (idxOf a s)).children c = nodeAt a (s ++ [c]) := by
  rw [nodeAt_concat, trieHas_nodeAt hs]
  rfl

theorem longestExt_self {a : AhoCorasick} {t : List Char} {c : Char}
    (h1 : trieHas a t = true) (h2 : trieHas a (t ++ [c]) = true) :
    longestExt a t c = some t := by
  rw [longestExt]
  cases t with
  | nil =>
    rw [List.nil_append] at h2
    simp [List.filter_cons, h1, h2]
  | cons d l =>
    rw [List.tails_cons, List.filter_cons, if_pos (by rw [Bool.and_eq_true]; exact ⟨h1, h2⟩)]
    rfl

theorem longestExt_eq_some {a : AhoCorasick} {t u : List Char} {c : Char}
    (hu : u <:+ t) (h1 : trieHas a u = true) (h2 : trieHas a (u ++ [c]) = true)
    (hmax : ∀ v, v <:+ t → trieHas a v = true → trieHas a (v ++ [c]) = true →
      v.length ≤ u.length) :
    longestExt a t c = some u := by
  set p := fun v => trieHas a v && trieHas a (v ++ [c]) with hp
  have hne : t.tails.filter p ≠ [] := by
    intro hcon
    have : u ∈ t.tails.filter p :=
      List.mem_filter.mpr ⟨(List.mem_tails _ _).mpr hu,
        by rw [hp, Bool.and_eq_true]; exact ⟨h1, h2⟩⟩
    rw [hcon] at this
    exact List.not_mem_nil _ this
  obtain ⟨hph, hsh⟩ := tails_filter_spec hne
  rw [hp, Bool.and_eq_true] at hph
  have hlen : ((t.tails.filter p).headD []).length = u.length :=
    Nat.le_antisymm (hmax _ hsh hph.1 hph.2)
      (tails_filter_longest p t u hu (by rw [hp, Bool.and_eq_true]; exact ⟨h1, h2⟩))
  have heq : (t.tails.filter p).headD [] = u := suffix_eq_of_length hsh hu hlen
  rw [longestExt]
  show (t.tails.filter p).head? = some u
  rw [List.headD_eq_head?] at heq
  cases hh : (t.tails.filter p).head? with
  | none => exact absurd (List.head?_eq_none_iff.mp hh) hne
  | some w =>
    rw [hh] at heq
    simp only [Option.getD_some] at heq
    rw [heq]

theorem longestExt_eq_none {a : AhoCorasick} {t : List Char} {c : Char}
    (h : ∀ v, v <:+ t → trieHas a v = true → trieHas a (v ++ [c]) = true → False) :
    longestExt a t c = none := by
  rw [longestExt, List.head?_eq_none_iff]
  rw [List.filter_eq_nil_iff]
  intro v hv
  rw [Bool.and_eq_true]
  rintro ⟨h1, h2⟩
  exact h v ((List.mem_tails _ _).mp hv) h1 h2

/-- When `t` itself has no transition on `c`, stepping down one failure
link preserves the longest extendable suffix. -/
theorem longestExt_step {a : AhoCorasick} {t : List Char} {c : Char}
    (hnot : trieHas a (t ++ [c]) = false) (hne : t ≠ []) :
    longestExt a t c = longestExt a (failSpec a t) c := by
  cases hle : longestExt a (failSpec a t) c with
  | none =>
    apply longestExt_eq_none
    intro v hv h1 h2
    have hvt : v ≠ t := by
      intro hcon
      rw [hcon] at h2
      rw [h2] at hnot
      cases hnot
    have hvfs : v <:+ failSpec a t :=
      List.suffix_of_suffix_length_le hv (failSpec_suffix hne).1
        (failSpec_longest hv hvt h1)
    exact (longestExt_none hle v hvfs h1 h2).elim
  | some u =>
    obtain ⟨hu1, hu2, hu3⟩ := longestExt_some hle
    apply longestExt_eq_some (hu1.trans (failSpec_suffix hne).1) hu2 hu3
    intro v hv h1 h2
    have hvt : v ≠ t := by
      intro hcon
      rw [hcon] at h2
      rw [h2] at hnot
      cases hnot
    have hvfs : v <:+ failSpec a t :=
      List.suffix_of_suffix_length_le hv (failSpec_suffix hne).1
        (failSpec_longest hv hvt h1)
    exact longestExt_longest hle v hvfs h1 h2

/-- Correctness of the failure-walk loop of `BuildFailureLinks` on a
mid-BFS arena `b`: started at the node of a trie string `t` whose whole
suffix chain already carries final failure links, it stops exactly at the
node of the longest extendable suffix of `t` (or runs off the root, giving
`none`, when no suffix of `t` extends by `c`). -/
theorem failChainWalk_spec {a b : AhoCorasick}
    (hch : ∀ j, (getNode b j).children = (getNode a j).children)
    (hroot : (getNode b 0).fail = none) :
    ∀ n t, t.length ≤ n → trieHas a t = true →
      (∀ u, u <:+ t → u ≠ [] → trieHas a u = true →
        (getNode b (idxOf a u)).fail = some (idxOf a (failSpec a u))) →
      ∀ fuel, t.length + 2 ≤ fuel → ∀ c,
        failChainWalk b c fuel (some (idxOf a t)) =
          (longestExt a t c).map (fun u => idxOf a u) := by
  intro n
  induction n with
  | zero =>
    intro t ht htrie hfin fuel hfuel c
    have htnil : t = [] := List.length_eq_zero.mp (Nat.le_zero.mp ht)
    subst htnil
    obtain ⟨fuel', rfl⟩ : ∃ f', fuel = f' + 1 := ⟨fuel - 1, by omega⟩
    rw [failChainWalk]
    have hidx : idxOf a [] = 0 := by rw [idxOf, nodeAt_nil]; rfl
    rw [hidx, hch 0]
    cases hcl : childLookup (getNode a 0).children c with
    | some j =>
      have h2 : trieHas a [c] = true := by
        rw [trieHas]
        have : nodeAt a ([] ++ [c]) = some j := by
          rw [← trieHas_concat_child (trieHas_nil a) c, hidx]
          exact hcl
        rw [List.nil_append] at this
        rw [this]
        rfl
      rw [longestExt_self (trieHas_nil a) (by rw [List.nil_append]; exact h2)]
      simp [hidx]
    | none =>
      have h2 : trieHas a [c] = false := by
        have : nodeAt a ([] ++ [c]) = none := by
          rw [← trieHas_concat_child (trieHas_nil a) c, hidx]
          exact hcl
        rw [List.nil_append] at this
        rw [trieHas, this]
        rfl
      rw [hroot]
      have hnone : longestExt a [] c = none := by
        apply longestExt_eq_none
        intro v hv _ hvc
        rw [List.suffix_nil.mp hv, List.nil_append] at hvc
        rw [hvc] at h2
        cases h2
      rw [hnone]
      cases fuel' <;> rfl
  | succ n ih =>
    intro t ht htrie hfin fuel hfuel c
    by_cases htnil : t = []
    · exact ih t (by rw [htnil]; exact Nat.zero_le n) htrie hfin fuel hfuel c
    · obtain ⟨fuel', rfl⟩ : ∃ f', fuel = f' + 1 := ⟨fuel - 1, by omega⟩
      rw [failChainWalk]
      rw [hch (idxOf a t)]
      rw [trieHas_concat_child htrie c]
      cases hcl : nodeAt a (t ++ [c]) with
      | some j =>
        have h2 : trieHas a (t ++ [c]) = true := by rw [trieHas, hcl]; rfl
        rw [longestExt_self htrie h2]
        rfl
      | none =>
        have h2 : trieHas a (t ++ [c]) = false := by rw [trieHas, hcl]; rfl
        rw [hfin t (List.suffix_refl t) htnil htrie]
        have hfs := failSpec_suffix (a := a) htnil
        have hrec := ih (failSpec a t) (by omega) (failSpec_trieHas htnil)
          (fun u hu hune hutrie => hfin u (hu.trans hfs.1) hune hutrie)
          fuel' (by omega) c
        rw [hrec, longestExt_step h2 htnil]

theorem trieHas_length_lt {a : AhoCorasick} (W : StructWF a) {s : List Char}
    (h : trieHas a s = true) : s.length < a.nodes.length := by
  set l := (List.range (s.length + 1)).map (fun k => idxOf a (s.take k)) with hl
  have htk : ∀ k, k ≤ s.length → trieHas a (s.take k) = true := by
    intro k hk
    have : s.take k ++ s.drop k = s := List.take_append_drop k s
    apply trieHas_of_append (t := s.drop k)
    rw [this]
    exact h
  have hnd : l.Nodup := by
    rw [hl]
    refine List.Nodup.map_on ?_ (List.nodup_range _)
    intro k1 h1 k2 h2 heq
    rw [List.mem_range] at h1 h2
    have := idxOf_inj W (htk k1 (by omega)) (htk k2 (by omega)) heq
    have := congrArg List.length this
    rw [List.length_take, List.length_take] at this
    omega
  have hsub : l.toFinset ⊆ Finset.range a.nodes.length := by
    intro j hj
    rw [List.mem_toFinset, hl] at hj
    obtain ⟨k, hk, rfl⟩ := List.mem_map.mp hj
    rw [List.mem_range] at hk
    rw [Finset.mem_range]
    exact nodeAt_lt W (trieHas_nodeAt (htk k (by omega)))
  have hcard : l.length = l.toFinset.card := (List.toFinset_card_of_nodup hnd).symm
  have hlen : l.length = s.length + 1 := by rw [hl]; simp
  have := Finset.card_le_card hsub
  rw [Finset.card_range] at this
  omega

theorem trie_strings_bound {a : AhoCorasick} (W : StructWF a) {l : List (List Char)}
    (hnd : l.Nodup) (hmem : ∀ s ∈ l, trieHas a s = true ∧ s ≠ []) :
    l.length + 1 ≤ a.nodes.length := by
  set m := l.map (idxOf a) with hm
  have hnd2 : m.Nodup := by
    rw [hm]
    refine List.Nodup.map_on ?_ hnd
    intro s h1 t h2 heq
    exact idxOf_inj W (hmem s h1).1 (hmem t h2).1 heq
  have hsub : m.toFinset ⊆ Finset.Ioo 0 a.nodes.length := by
    intro j hj
    rw [List.mem_toFinset, hm] at hj
    obtain ⟨s, hs, rfl⟩ := List.mem_map.mp hj
    rw [Finset.mem_Ioo]
    obtain ⟨h1, h2⟩ := hmem s hs
    constructor
    · have := nodeAt_ne_zero W h2 (trieHas_nodeAt h1)
      omega
    · exact nodeAt_lt W (trieHas_nodeAt h1)
  have hcard : m.length = m.toFinset.card := (List.toFinset_card_of_nodup hnd2).symm
  have hlen : m.length = l.length := by rw [hm]; simp
  have := Finset.card_le_card hsub
  rw [Nat.card_Ioo] at this
  have hpos : 0 < a.nodes.length := W.len_pos
  omega

theorem setNode_congr {b : AhoCorasick} (i : Nat) {f g : Node → Node}
    (h : f (getNode b i) = g (getNode b i)) : setNode b i f = setNode b i g := by
  rw [setNode, setNode, h]

theorem idxOf_nil (a : AhoCorasick) : idxOf a [] = 0 := by
  rw [idxOf, nodeAt_nil]
  rfl

/-- One `buildChild` call on a mid-BFS arena sets exactly the specified
failure link and merged output of the child node. -/
theorem buildChild_spec {a b : AhoCorasick} (W : StructWF a)
    (hch : ∀ j, (getNode b j).children = (getNode a j).children)
    (hlenb : b.nodes.length = a.nodes.length)
    (hroot : (getNode b 0).fail = none)
    {sf : List Char} (hsf : trieHas a sf = true) (hsfne : sf ≠ [])
    (hfail_sf : (getNode b (idxOf a sf)).fail = some (idxOf a (failSpec a sf)))
    (hchain : ∀ u, u <:+ failSpec a sf → u ≠ [] → trieHas a u = true →
      (getNode b (idxOf a u)).fail = some (idxOf a (failSpec a u)))
    (c : Char)
    (htarget : failSpec a (sf ++ [c]) ≠ [] →
      (getNode b (idxOf a (failSpec a (sf ++ [c])))).output =
        outStar a (failSpec a (sf ++ [c])))
    (hchild_out : (getNode b (idxOf a (sf ++ [c]))).output =
      (getNode a (idxOf a (sf ++ [c]))).output) :
    buildChild b (idxOf a sf) c (idxOf a (sf ++ [c])) =
      setNode b (idxOf a (sf ++ [c])) (fun nd =>
        { nd with fail := some (idxOf a (failSpec a (sf ++ [c]))),
                  output := outStar a (sf ++ [c]) }) := by
  have hfs := failSpec_suffix (a := a) hsfne
  have hfst : trieHas a (failSpec a sf) = true := failSpec_trieHas hsfne
  have hsflen : sf.length < a.nodes.length := trieHas_length_lt W hsf
  have hwalk := failChainWalk_spec hch hroot (failSpec a sf).length (failSpec a sf)
    le_rfl hfst hchain b.nodes.length (by omega) c
  have hbridge := failSpec_concat (a := a) c hsfne
  rw [buildChild, hfail_sf, hwalk]
  cases hle : longestExt a (failSpec a sf) c with
  | none =>
    rw [hle] at hbridge
    simp only [Option.map_none']
    apply setNode_congr
    have h0 : failSpec a (sf ++ [c]) = [] := hbridge
    rw [outStar_unfold (by simp), h0, if_pos rfl, List.append_nil, hchild_out, idxOf_nil]
  | some u =>
    rw [hle] at hbridge
    obtain ⟨hu1, hu2, hu3⟩ := longestExt_some hle
    have h0 : failSpec a (sf ++ [c]) = u ++ [c] := hbridge
    simp only [Option.map_some']
    have hclu : childLookup (getNode b (idxOf a u)).children c = some (idxOf a (u ++ [c])) := by
      rw [hch, trieHas_concat_child hu2 c]
      exact trieHas_nodeAt hu3
    rw [hclu]
    simp only [Option.getD_some]
    apply setNode_congr
    have hne2 : failSpec a (sf ++ [c]) ≠ [] := by rw [h0]; simp
    have hout := htarget hne2
    rw [h0] at hout
    rw [outStar_unfold (show sf ++ [c] ≠ [] by simp), h0, if_neg (by simp),
      hchild_out, ← hout, ← h0]

/-- Processing the whole children list of a dequeued node finalizes every
child, enqueues them in order, and touches nothing else. -/
theorem buildChildren_spec {a : AhoCorasick} (W : StructWF a) {sf : List Char}
    (hsf : trieHas a sf = true) (hsfne : sf ≠ []) :
    ∀ (L : List (Char × Nat)) (b : AhoCorasick) (q : List Nat),
      (∀ j, (getNode b j).children = (getNode a j).children) →
      b.nodes.length = a.nodes.length →
      (getNode b 0).fail = none →
      (L.map Prod.fst).Nodup →
      (∀ cj ∈ L, trieHas a (sf ++ [cj.1]) = true ∧ cj.2 = idxOf a (sf ++ [cj.1])) →
      (∀ s, trieHas a s = true → s ≠ [] → s.length ≤ sf.length → bfsFinal a b s) →
      (∀ cj ∈ L, (getNode b cj.2).output = (getNode a cj.2).output) →
      (buildChildren b (idxOf a sf) q L).2 = q ++ L.map Prod.snd ∧
      (buildChildren b (idxOf a sf) q L).1.nodes.length = a.nodes.length ∧
      (∀ j, (getNode (buildChildren b (idxOf a sf) q L).1 j).children =
        (getNode a j).children) ∧
      (∀ k, k ∉ L.map Prod.snd →
        getNode (buildChildren b (idxOf a sf) q L).1 k = getNode b k) ∧
      (∀ cj ∈ L, bfsFinal a (buildChildren b (idxOf a sf) q L).1 (sf ++ [cj.1])) := by
  intro L
  induction L with
  | nil =>
    intro b q hch hlenb hroot hkeys hvals hfin hout
    refine ⟨by simp [buildChildren], hlenb, hch, fun k _ => rfl, fun cj hcj => absurd hcj (List.not_mem_nil cj)⟩
  | cons cj rest ih =>
    intro b q hch hlenb hroot hkeys hvals hfin hout
    obtain ⟨c, j⟩ := cj
    have hj : j = idxOf a (sf ++ [c]) := (hvals (c, j) (List.mem_cons_self _ _)).2
    have hcj_trie : trieHas a (sf ++ [c]) = true := (hvals (c, j) (List.mem_cons_self _ _)).1
    have hstep : buildChildren b (idxOf a sf) q ((c, j) :: rest) =
        buildChildren (buildChild b (idxOf a sf) c j) (idxOf a sf) (q ++ [j]) rest := rfl
    have hjlt : j < a.nodes.length := by
      rw [hj]
      exact nodeAt_lt W (trieHas_nodeAt hcj_trie)
    have hjne0 : j ≠ 0 := by
      rw [hj]
      exact nodeAt_ne_zero W (by simp) (trieHas_nodeAt hcj_trie)
    have hfail_sf : (getNode b (idxOf a sf)).fail = some (idxOf a (failSpec a sf)) :=
      (hfin sf hsf hsfne le_rfl).1
    have hfslen := (failSpec_suffix (a := a) hsfne).2
    have hchain : ∀ u, u <:+ failSpec a sf → u ≠ [] → trieHas a u = true →
        (getNode b (idxOf a u)).fail = some (idxOf a (failSpec a u)) := by
      intro u hu hune hutrie
      exact (hfin u hutrie hune (by have := hu.length_le; omega)).1
    have htarget : failSpec a (sf ++ [c]) ≠ [] →
        (getNode b (idxOf a (failSpec a (sf ++ [c])))).output =
          outStar a (failSpec a (sf ++ [c])) := by
      intro hne
      have htr : trieHas a (failSpec a (sf ++ [c])) = true :=
        failSpec_trieHas (by simp)
      have hlen2 : (failSpec a (sf ++ [c])).length ≤ sf.length := by
        have := (failSpec_suffix (a := a) (s := sf ++ [c]) (by simp)).2
        simp only [List.length_append, List.length_singleton] at this
        omega
      exact (hfin _ htr hne hlen2).2
    have hchild_out : (getNode b (idxOf a (sf ++ [c]))).output =
        (getNode a (idxOf a (sf ++ [c]))).output := by
      have := hout (c, j) (List.mem_cons_self _ _)
      rw [hj] at this
      exact this
    have hbc : buildChild b (idxOf a sf) c j =
        setNode b (idxOf a (sf ++ [c])) (fun nd =>
          { nd with fail := some (idxOf a (failSpec a (sf ++ [c]))),
                    output := outStar a (sf ++ [c]) }) := by
      rw [hj]
      exact buildChild_spec W hch hlenb hroot hsf hsfne hfail_sf hchain c htarget hchild_out
    set b1 := buildChild b (idxOf a sf) c j with hb1
    have hb1get_j : getNode b1 j = { getNode b j with
        fail := some (idxOf a (failSpec a (sf ++ [c]))),
        output := outStar a (sf ++ [c]) } := by
      rw [hbc, hj]
      exact getNode_setNode_self (by omega) _
    have hb1get : ∀ k, k ≠ j → getNode b1 k = getNode b k := by
      intro k hk
      rw [hbc, ← hj]
      exact getNode_setNode_ne (Ne.symm hk) _
    have hb1len : b1.nodes.length = a.nodes.length := by
      rw [hbc, setNode_length]
      exact hlenb
    have hb1ch : ∀ k, (getNode b1 k).children = (getNode a k).children := by
      intro k
      by_cases hk : k = j
      · rw [hk, hb1get_j]
        exact hch j
      · rw [hb1get k hk]
        exact hch k
    have hb1root : (getNode b1 0).fail = none := by
      rw [hb1get 0 (Ne.symm hjne0)]
      exact hroot
    have hkeys' : (rest.map Prod.fst).Nodup := (List.nodup_cons.mp hkeys).2
    have hcnotin : c ∉ rest.map Prod.fst := (List.nodup_cons.mp hkeys).1
    have hrestne : ∀ cj' ∈ rest, cj'.2 ≠ j := by
      intro cj' hmem hcon
      have h1 := (hvals cj' (List.mem_cons_of_mem _ hmem)).2
      rw [h1, hj] at hcon
      have := idxOf_inj W (hvals cj' (List.mem_cons_of_mem _ hmem)).1 hcj_trie hcon
      have hceq : cj'.1 = c := by
        have := List.append_inj' this rfl
        exact List.singleton_inj.mp this.2
      exact hcnotin (hceq ▸ List.mem_map.mpr ⟨cj', hmem, rfl⟩)
    have hfin1 : ∀ s, trieHas a s = true → s ≠ [] → s.length ≤ sf.length →
        bfsFinal a b1 s := by
      intro s h1 h2 h3
      have hne : idxOf a s ≠ j := by
        intro hcon
        rw [hj] at hcon
        have := idxOf_inj W h1 hcj_trie hcon
        rw [this] at h3
        simp at h3
      rw [bfsFinal, hb1get _ hne]
      exact hfin s h1 h2 h3
    have hout1 : ∀ cj' ∈ rest, (getNode b1 cj'.2).output = (getNode a cj'.2).output := by
      intro cj' hmem
      rw [hb1get _ (hrestne cj' hmem)]
      exact hout cj' (List.mem_cons_of_mem _ hmem)
    obtain ⟨ihq, ihlen, ihch, ihuntouched, ihfin⟩ :=
      ih b1 (q ++ [j]) hb1ch hb1len hb1root hkeys'
        (fun cj' hmem => hvals cj' (List.mem_cons_of_mem _ hmem)) hfin1 hout1
    rw [hstep]
    refine ⟨?_, ihlen, ihch, ?_, ?_⟩
    · rw [ihq]
      simp
    · intro k hk
      have hk1 : k ≠ j := by
        intro hcon
        exact hk (by rw [hcon]; exact List.mem_cons_self _ _)
      have hk2 : k ∉ rest.map Prod.snd := by
        intro hcon
        exact hk (List.mem_cons_of_mem _ hcon)
      rw [ihuntouched k hk2, hb1get k hk1]
    · intro cj' hmem
      rcases List.mem_cons.mp hmem with h1 | h1
      · subst h1
        have hjnotin : j ∉ rest.map Prod.snd := by
          intro hcon
          obtain ⟨cj'', hmem2, heq2⟩ := List.mem_map.mp hcon
          exact hrestne cj'' hmem2 heq2
        rw [bfsFinal, ← hj, ihuntouched j hjnotin, hb1get_j]
        exact ⟨rfl, rfl⟩
      · exact ihfin cj' h1

theorem buildLoop_nil (fuel : Nat) (b : AhoCorasick) : buildLoop fuel b [] = b := by
  cases fuel <;> rfl

/-- Every trie string strictly shorter than the queue's front has been
dequeued. -/
theorem bfsInv_lt_mem {a b : AhoCorasick} {q : List Nat} {D : List (List Char)}
    {sf : List Char} {qs' : List (List Char)}
    (inv : bfsInv a b q D (sf :: qs')) :
    ∀ s, trieHas a s = true → s ≠ [] → s.length < sf.length → s ∈ D := by
  obtain ⟨_, _, _, _, _, i6, _, i8, _, _, _⟩ := inv
  intro s h1 h2 h3
  apply i8 s h1 h2
  intro f hf
  rcases List.mem_cons.mp hf with rfl | hf'
  · exact h3
  · have := (List.pairwise_cons.mp i6).1 f hf'
    omega

/-- Every trie string no longer than the queue's front has been enqueued
(and is therefore finalized). -/
theorem bfsInv_le_mem {a b : AhoCorasick} {q : List Nat} {D : List (List Char)}
    {sf : List Char} {qs' : List (List Char)}
    (inv : bfsInv a b q D (sf :: qs')) :
    ∀ s, trieHas a s = true → s ≠ [] → s.length ≤ sf.length → s ∈ D ++ (sf :: qs') := by
  have hLT := bfsInv_lt_mem inv
  have i9 := inv.2.2.2.2.2.2.2.2.1
  intro s h1 h2 h3
  by_cases hlt : s.length < sf.length
  · exact List.mem_append_left _ (hLT s h1 h2 hlt)
  · have heq : s.length = sf.length := by omega
    rw [i9 s h1 h2]
    by_cases h4 : s.length = 1
    · exact Or.inl h4
    · right
      obtain ⟨s1, c, rfl⟩ : ∃ s1 c, s = s1 ++ [c] := by
        rcases List.eq_nil_or_concat s with rfl | ⟨s1, c, rfl⟩
        · exact absurd rfl h2
        · exact ⟨s1, c, by rw [List.concat_eq_append]⟩
      rw [List.dropLast_concat]
      apply hLT s1 (trieHas_of_append h1)
      · intro hcon
        rw [hcon] at h4
        simp at h4
      · have hl2 : (s1 ++ [c]).length = s1.length + 1 := by simp
        omega

theorem bfsInv_fin_le {a b : AhoCorasick} {q : List Nat} {D : List (List Char)}
    {sf : List Char} {qs' : List (List Char)}
    (inv : bfsInv a b q D (sf :: qs')) :
    ∀ s, trieHas a s = true → s ≠ [] → s.length ≤ sf.length → bfsFinal a b s := by
  intro s h1 h2 h3
  have i10 := inv.2.2.2.2.2.2.2.2.2.1
  exact i10 s (bfsInv_le_mem inv s h1 h2 h3)

/-- When the queue has emptied, every node of the trie has been finalized. -/
theorem bfsInv_done {a b : AhoCorasick} {q : List Nat} {D : List (List Char)}
    (inv : bfsInv a b q D []) :
    b.nodes.length = a.nodes.length ∧
    (∀ j, (getNode b j).children = (getNode a j).children) ∧
    getNode b 0 = getNode a 0 ∧
    (∀ s, trieHas a s = true → s ≠ [] → bfsFinal a b s) := by
  obtain ⟨i1, i2, _, i4, _, _, _, i8, _, i10, i11⟩ := inv
  refine ⟨i1, i2, ?_, ?_⟩
  · have h0 : ([] : List Char) ∉ D ++ ([] : List (List Char)) := by
      intro hcon
      exact (i4 [] hcon).2 rfl
    have := i11 [] (trieHas_nil a) h0
    rw [idxOf_nil] at this
    exact this
  · intro s h1 h2
    apply i10
    apply List.mem_append_left
    exact i8 s h1 h2 (fun f hf => absurd hf (List.not_mem_nil f))

theorem idxOf_eq_of_nodeAt {a : AhoCorasick} {t : List Char} {j : Nat}
    (h : nodeAt a t = some j) : idxOf a t = j := by
  rw [idxOf, h]
  rfl

/-- Dequeuing the front node and processing its children preserves the BFS
invariant, with the front moved to the dequeued list and its children
enqueued. -/
theorem bfsInv_step {a b : AhoCorasick} (W : StructWF a)
    (hroota : (getNode a 0).fail = none)
    {D qs' : List (List Char)} {sf : List Char} {cur : Nat} {rest : List Nat}
    (inv : bfsInv a b (cur :: rest) D (sf :: qs')) :
    bfsInv a (buildChildren b cur rest ((getNode b cur).children)).1
      (buildChildren b cur rest ((getNode b cur).children)).2
      (D ++ [sf]) (qs' ++ ((getNode a cur).children).map (fun cj => sf ++ [cj.1])) := by
  have invC := inv
  obtain ⟨i1, i2, i3, i4, i5, i6, i7, i8, i9, i10, i11⟩ := inv
  have hsf1 : trieHas a sf = true :=
    (i4 sf (List.mem_append_right _ (List.mem_cons_self _ _))).1
  have hsf2 : sf ≠ [] :=
    (i4 sf (List.mem_append_right _ (List.mem_cons_self _ _))).2
  have hcur : cur = idxOf a sf := by
    rw [List.map_cons] at i3
    exact (List.cons.injEq _ _ _ _ ▸ i3).1
  have hrest : rest = qs'.map (idxOf a) := by
    rw [List.map_cons] at i3
    exact (List.cons.injEq _ _ _ _ ▸ i3).2
  have hdisjDq : List.Disjoint D (sf :: qs') := List.disjoint_of_nodup_append i5
  have hsf_notD : sf ∉ D := fun h => hdisjDq h (List.mem_cons_self _ _)
  have hbch : (getNode b cur).children = (getNode a cur).children := i2 cur
  set L := (getNode a cur).children with hL
  set CS := L.map (fun cj => sf ++ [cj.1]) with hCS
  have hvals : ∀ cj ∈ L, trieHas a (sf ++ [cj.1]) = true ∧ cj.2 = idxOf a (sf ++ [cj.1]) := by
    intro cj hcj
    obtain ⟨c, j⟩ := cj
    have hna : nodeAt a (sf ++ [c]) = some j := by
      apply (child_mem_iff W hsf1 c j).mp
      rw [← hcur, ← hL]
      exact hcj
    exact ⟨by rw [trieHas, hna]; rfl, (idxOf_eq_of_nodeAt hna).symm⟩
  have hmemCS : ∀ s, s ∈ CS ↔ ∃ c, trieHas a (sf ++ [c]) = true ∧ s = sf ++ [c] := by
    intro s
    constructor
    · intro hs
      obtain ⟨cj, hcj, rfl⟩ := List.mem_map.mp hs
      exact ⟨cj.1, (hvals cj hcj).1, rfl⟩
    · rintro ⟨c, hc, rfl⟩
      have hmem2 : (c, idxOf a (sf ++ [c])) ∈ L := by
        rw [hL, hcur]
        exact (child_mem_iff W hsf1 c (idxOf a (sf ++ [c]))).mpr (trieHas_nodeAt hc)
      exact List.mem_map.mpr ⟨(c, idxOf a (sf ++ [c])), hmem2, rfl⟩
  have hchild_notin : ∀ c, trieHas a (sf ++ [c]) = true → sf ++ [c] ∉ D ++ sf :: qs' := by
    intro c hc hcon
    rcases (i9 (sf ++ [c]) hc (by simp)).mp hcon with h1 | h1
    · rw [List.length_append, List.length_singleton] at h1
      have : sf.length ≠ 0 := fun h => hsf2 (List.length_eq_zero.mp h)
      omega
    · rw [List.dropLast_concat] at h1
      exact hsf_notD h1
  have hrootb : (getNode b 0).fail = none := by
    have h0 : ([] : List Char) ∉ D ++ sf :: qs' := by
      intro hcon
      exact (i4 [] hcon).2 rfl
    have h1 := i11 [] (trieHas_nil a) h0
    rw [idxOf_nil] at h1
    rw [h1]
    exact hroota
  have houts : ∀ cj ∈ L, (getNode b cj.2).output = (getNode a cj.2).output := by
    intro cj hcj
    obtain ⟨hc1, hc2⟩ := hvals cj hcj
    rw [hc2]
    rw [i11 (sf ++ [cj.1]) hc1 (hchild_notin cj.1 hc1)]
  have hkeys : (L.map Prod.fst).Nodup := by
    rw [hL, hcur]
    exact W.keys_nodup (idxOf a sf)
  rw [hbch, hcur]
  obtain ⟨hq2, hlen2, hch2, huntouched2, hfin2⟩ :=
    buildChildren_spec W hsf1 hsf2 L b rest i2 i1 hrootb hkeys hvals
      (bfsInv_fin_le invC) houts
  set b' := (buildChildren b (idxOf a sf) rest L).1 with hb'
  have hCSidx : L.map Prod.snd = CS.map (idxOf a) := by
    rw [hCS, List.map_map]
    exact List.map_congr_left (fun cj hcj => (hvals cj hcj).2)
  have huntouchedS : ∀ s, trieHas a s = true → s ∉ CS →
      getNode b' (idxOf a s) = getNode b (idxOf a s) := by
    intro s h1 h2
    apply huntouched2
    intro hcon
    obtain ⟨cj, hcj, heq⟩ := List.mem_map.mp hcon
    have := idxOf_inj W (hvals cj hcj).1 h1 ((hvals cj hcj).2 ▸ heq)
    exact h2 (by rw [← this]; exact List.mem_map.mpr ⟨cj, hcj, rfl⟩)
  have hCSnodup : CS.Nodup := by
    have hCS2 : CS = (L.map Prod.fst).map (fun c => sf ++ [c]) := by
      rw [hCS, List.map_map]
      rfl
    rw [hCS2]
    refine List.Nodup.map ?_ hkeys
    intro x y h
    simpa using h
  have hCSlen : ∀ s ∈ CS, s.length = sf.length + 1 := by
    intro s hs
    obtain ⟨c, _, rfl⟩ := (hmemCS s).mp hs
    simp
  have hdisjCS : List.Disjoint (D ++ sf :: qs') CS := by
    intro x hx hxCS
    obtain ⟨c, hc, rfl⟩ := (hmemCS x).mp hxCS
    exact hchild_notin c hc hx
  have hsplit : ∀ s, s ∈ (D ++ [sf]) ++ (qs' ++ CS) ↔ s ∈ D ++ sf :: qs' ∨ s ∈ CS := by
    intro s
    simp only [List.mem_append, List.mem_cons, List.mem_singleton]
    tauto
  have hq0span : ∀ t ∈ qs', t.length ≤ sf.length + 1 := by
    intro t ht
    exact i7 sf rfl t (List.mem_cons_of_mem _ ht)
  have hq0lb : ∀ t ∈ qs', sf.length ≤ t.length := by
    intro t ht
    exact (List.pairwise_cons.mp i6).1 t ht
  refine ⟨hlen2, hch2, ?_, ?_, ?_, ?_, ?_, ?_, ?_, ?_, ?_⟩
  · rw [hq2, hrest, hCSidx, List.map_append]
  · intro s hs
    rcases (hsplit s).mp hs with h1 | h1
    · exact i4 s h1
    · obtain ⟨c, hc, rfl⟩ := (hmemCS s).mp h1
      exact ⟨hc, by simp⟩
  · have hlist : (D ++ [sf]) ++ (qs' ++ CS) = (D ++ sf :: qs') ++ CS := by simp
    rw [hlist, List.nodup_append]
    exact ⟨i5, hCSnodup, hdisjCS⟩
  · rw [List.pairwise_append]
    refine ⟨(List.pairwise_cons.mp i6).2, ?_, ?_⟩
    · apply List.pairwise_of_forall_mem_list
      intro s hs t ht
      rw [hCSlen s hs, hCSlen t ht]
    · intro t ht u hu
      rw [hCSlen u hu]
      exact le_trans (hq0span t ht) (by omega)
  · intro f hf t ht
    cases hqs' : qs' with
    | nil =>
      rw [hqs'] at hf ht
      rw [List.nil_append] at hf ht
      rw [hCSlen f (List.mem_of_mem_head? hf), hCSlen t ht]
      omega
    | cons q0 qs'' =>
      rw [hqs'] at hf ht
      have hfq0 : f = q0 := by
        rw [List.cons_append, List.head?_cons] at hf
        exact (Option.mem_some_iff.mp hf).symm
      subst hfq0
      have hq0 : sf.length ≤ f.length := hq0lb f (by rw [hqs']; exact List.mem_cons_self _ _)
      rcases List.mem_append.mp ht with h1 | h1
      · have := hq0span t (by rw [hqs']; exact h1)
        omega
      · rw [hCSlen t h1]
        omega
  · intro s hs1 hs2 hcond
    by_cases hq'nil : qs' ++ CS = []
    · obtain ⟨hqs'nil, hCSnil⟩ := List.append_eq_nil.mp hq'nil
      have hLnil : L = [] := by
        cases hLc : L with
        | nil => rfl
        | cons cj L' =>
          rw [hCS, hLc] at hCSnil
          cases hCSnil
      have key : ∀ n t, t.length ≤ n → trieHas a t = true → t ≠ [] → t ∈ D ++ [sf] := by
        intro n
        induction n with
        | zero =>
          intro t htn h1 h2
          exact absurd (List.length_eq_zero.mp (Nat.le_zero.mp htn)) h2
        | succ n ihn =>
          intro t htn h1 h2
          by_cases hle : t.length ≤ sf.length
          · have := bfsInv_le_mem invC t h1 h2 hle
            rw [hqs'nil] at this
            exact this
          · obtain ⟨t1, c, rfl⟩ : ∃ t1 c, t = t1 ++ [c] := by
              rcases List.eq_nil_or_concat t with rfl | ⟨t1, c, rfl⟩
              · exact absurd rfl h2
              · exact ⟨t1, c, by rw [List.concat_eq_append]⟩
            have ht1 : trieHas a t1 = true := trieHas_of_append h1
            have ht1ne : t1 ≠ [] := by
              intro hcon
              subst hcon
              have hsfpos : 1 ≤ sf.length := by
                cases sf with
                | nil => exact absurd rfl hsf2
                | cons x xs => simp
              have hx : (([] : List Char) ++ [c]).length = 1 := by simp
              omega
            have ht1len : t1.length ≤ n := by
              have : (t1 ++ [c]).length = t1.length + 1 := by simp
              omega
            rcases List.mem_append.mp (ihn t1 ht1len ht1 ht1ne) with hpD | hpsf
            · have : t1 ++ [c] ∈ D ++ sf :: qs' := by
                rw [i9 (t1 ++ [c]) h1 h2]
                right
                rw [List.dropLast_concat]
                exact hpD
              rw [hqs'nil] at this
              exact this
            · have ht1sf : t1 = sf := List.mem_singleton.mp hpsf
              subst ht1sf
              have hna := trieHas_nodeAt h1
              rw [nodeAt_concat, trieHas_nodeAt ht1] at hna
              simp only [Option.some_bind] at hna
              have hmem3 := childLookup_mem hna
              rw [hcur] at hL
              rw [← hL] at hmem3
              rw [hLnil] at hmem3
              cases hmem3
      exact key s.length s le_rfl hs1 hs2
    · have hf0 := List.head?_eq_head hq'nil
      set f0 := (qs' ++ CS).head hq'nil with hf0def
      have hf0mem : f0 ∈ qs' ++ CS := List.head_mem hq'nil
      have hf0le : f0.length ≤ sf.length + 1 := by
        rcases List.mem_append.mp hf0mem with h1 | h1
        · exact hq0span f0 h1
        · rw [hCSlen f0 h1]
      have hslen : s.length ≤ sf.length := by
        have := hcond f0 hf0mem
        omega
      rcases List.mem_append.mp (bfsInv_le_mem invC s hs1 hs2 hslen) with h1 | h1
      · exact List.mem_append_left _ h1
      · rcases List.mem_cons.mp h1 with rfl | h2
        · exact List.mem_append_right _ (List.mem_singleton_self _)
        · exfalso
          have := hcond s (List.mem_append_left _ h2)
          omega
  · intro s hs1 hs2
    rw [hsplit s]
    constructor
    · rintro (h1 | h1)
      · rcases (i9 s hs1 hs2).mp h1 with h2 | h2
        · exact Or.inl h2
        · exact Or.inr (List.mem_append_left _ h2)
      · obtain ⟨c, hc, rfl⟩ := (hmemCS s).mp h1
        right
        rw [List.dropLast_concat]
        exact List.mem_append_right _ (List.mem_singleton_self _)
    · rintro (h1 | h1)
      · exact Or.inl ((i9 s hs1 hs2).mpr (Or.inl h1))
      · rcases List.mem_append.mp h1 with h2 | h2
        · exact Or.inl ((i9 s hs1 hs2).mpr (Or.inr h2))
        · have hdl : s.dropLast = sf := List.mem_singleton.mp h2
          obtain ⟨s1, c, rfl⟩ : ∃ s1 c, s = s1 ++ [c] := by
            rcases List.eq_nil_or_concat s with rfl | ⟨s1, c, rfl⟩
            · exact absurd rfl hs2
            · exact ⟨s1, c, by rw [List.concat_eq_append]⟩
          rw [List.dropLast_concat] at hdl
          subst hdl
          exact Or.inr ((hmemCS _).mpr ⟨c, hs1, rfl⟩)
  · intro s hs
    rcases (hsplit s).mp hs with h1 | h1
    · have hfb := i10 s h1
      have hnotCS : s ∉ CS := fun hc => hdisjCS h1 hc
      rw [bfsFinal, huntouchedS s (i4 s h1).1 hnotCS]
      exact hfb
    · obtain ⟨cj, hcj, rfl⟩ := List.mem_map.mp h1
      exact hfin2 cj hcj
  · intro s hs1 hnot
    rw [hsplit s] at hnot
    push_neg at hnot
    rw [huntouchedS s hs1 hnot.2]
    exact i11 s hs1 hnot.1

/-- Running the BFS loop from any invariant state with enough fuel
finalizes every node of the trie. -/
theorem buildLoop_spec {a : AhoCorasick} (W : StructWF a)
    (hroota : (getNode a 0).fail = none) :
    ∀ (fuel : Nat) (b : AhoCorasick) (q : List Nat) (D qs : List (List Char)),
      bfsInv a b q D qs →
      a.nodes.length ≤ D.length + fuel + 1 →
      (buildLoop fuel b q).nodes.length = a.nodes.length ∧
      (∀ j, (getNode (buildLoop fuel b q) j).children = (getNode a j).children) ∧
      getNode (buildLoop fuel b q) 0 = getNode a 0 ∧
      (∀ s, trieHas a s = true → s ≠ [] → bfsFinal a (buildLoop fuel b q) s) := by
  intro fuel
  induction fuel with
  | zero =>
    intro b q D qs inv hfuel
    have hcount := trie_strings_bound W inv.2.2.2.2.1 inv.2.2.2.1
    have hqs : qs = [] := by
      rw [List.length_append] at hcount
      exact List.length_eq_zero.mp (by omega)
    subst hqs
    have hq : q = [] := by
      have h3 := inv.2.2.1
      simpa using h3
    subst hq
    rw [buildLoop_nil]
    exact bfsInv_done inv
  | succ fuel ih =>
    intro b q D qs inv hfuel
    cases q with
    | nil =>
      have hqs : qs = [] := by
        have h3 := inv.2.2.1
        exact (List.map_eq_nil_iff.mp h3.symm)
      subst hqs
      rw [buildLoop_nil]
      exact bfsInv_done inv
    | cons cur rest =>
      cases qs with
      | nil =>
        exfalso
        have h3 := inv.2.2.1
        simp at h3
      | cons sf qs' =>
        have hstep : buildLoop (fuel + 1) b (cur :: rest) =
            buildLoop fuel (buildChildren b cur rest ((getNode b cur).children)).1
              (buildChildren b cur rest ((getNode b cur).children)).2 := rfl
        rw [hstep]
        have hinv' := bfsInv_step W hroota inv
        have hlen' : (D ++ [sf]).length = D.length + 1 := by simp
        exact ih (buildChildren b cur rest ((getNode b cur).children)).1
          (buildChildren b cur rest ((getNode b cur).children)).2
          (D ++ [sf])
          (qs' ++ ((getNode a cur).children).map (fun cj => sf ++ [cj.1]))
          hinv' (by omega)

/-- The initialization fold of `BuildFailureLinks`: sets the failure link
of every root child to the root and enqueues them, touching nothing else. -/
theorem buildInit_fold_spec :
    ∀ (L : List (Char × Nat)) (b : AhoCorasick) (q : List Nat),
      (∀ cj ∈ L, cj.2 < b.nodes.length) →
      ((L.map Prod.snd).Nodup) →
      (L.foldl (fun r cj => (setNode r.1 cj.2 (fun n => { n with fail := some 0 }),
        r.2 ++ [cj.2])) (b, q)).2 = q ++ L.map Prod.snd ∧
      (L.foldl (fun r cj => (setNode r.1 cj.2 (fun n => { n with fail := some 0 }),
        r.2 ++ [cj.2])) (b, q)).1.nodes.length = b.nodes.length ∧
      (∀ k, k ∉ L.map Prod.snd →
        getNode (L.foldl (fun r cj => (setNode r.1 cj.2 (fun n => { n with fail := some 0 }),
          r.2 ++ [cj.2])) (b, q)).1 k = getNode b k) ∧
      (∀ cj ∈ L,
        getNode (L.foldl (fun r cj => (setNode r.1 cj.2 (fun n => { n with fail := some 0 }),
          r.2 ++ [cj.2])) (b, q)).1 cj.2 = { getNode b cj.2 with fail := some 0 }) := by
  intro L
  induction L with
  | nil =>
    intro b q _ _
    exact ⟨by simp, rfl, fun k _ => rfl, fun cj hcj => absurd hcj (List.not_mem_nil cj)⟩
  | cons cj rest ih =>
    intro b q hlt hnd
    obtain ⟨c, j⟩ := cj
    set b1 := setNode b j (fun n => { n with fail := some 0 }) with hb1
    have hjlt : j < b.nodes.length := hlt (c, j) (List.mem_cons_self _ _)
    have hb1j : getNode b1 j = { getNode b j with fail := some 0 } := by
      rw [hb1]
      exact getNode_setNode_self hjlt _
    have hb1k : ∀ k, k ≠ j → getNode b1 k = getNode b k := by
      intro k hk
      rw [hb1]
      exact getNode_setNode_ne (Ne.symm hk) _
    have hb1len : b1.nodes.length = b.nodes.length := by rw [hb1, setNode_length]
    have hjnotin : j ∉ rest.map Prod.snd := (List.nodup_cons.mp (by simpa using hnd)).1
    obtain ⟨ihq, ihlen, ihk, ihmem⟩ := ih b1 (q ++ [j])
      (fun cj' hcj' => by rw [hb1len]; exact hlt cj' (List.mem_cons_of_mem _ hcj'))
      (List.nodup_cons.mp (by simpa using hnd)).2
    have hstepfold : ((c, j) :: rest).foldl
        (fun r cj => (setNode r.1 cj.2 (fun n => { n with fail := some 0 }), r.2 ++ [cj.2]))
        (b, q) = rest.foldl
        (fun r cj => (setNode r.1 cj.2 (fun n => { n with fail := some 0 }), r.2 ++ [cj.2]))
        (b1, q ++ [j]) := rfl
    rw [hstepfold]
    refine ⟨by rw [ihq]; simp, by rw [ihlen, hb1len], ?_, ?_⟩
    · intro k hk
      have hk1 : k ≠ j := fun hcon => hk (by rw [hcon]; exact List.mem_cons_self _ _)
      have hk2 : k ∉ rest.map Prod.snd := fun hcon => hk (List.mem_cons_of_mem _ hcon)
      rw [ihk k hk2, hb1k k hk1]
    · intro cj' hcj'
      rcases List.mem_cons.mp hcj' with h1 | h1
      · subst h1
        rw [ihk j hjnotin, hb1j]
      · have hne : cj'.2 ≠ j := by
          intro hcon
          exact hjnotin (hcon ▸ List.mem_map.mpr ⟨cj', h1, rfl⟩)
        rw [ihmem cj' h1, hb1k cj'.2 hne]

/-- After the initialization loop, the BFS invariant holds with an empty
dequeued list and the root's children queued. -/
theorem buildInit_spec {a : AhoCorasick} (W : StructWF a) :
    bfsInv a (buildInit a).1 (buildInit a).2 []
      ((getNode a 0).children.map (fun cj => [cj.1])) := by
  set L := (getNode a 0).children with hL
  have hIroot : idxOf a [] = 0 := idxOf_nil a
  have hvals : ∀ cj ∈ L, nodeAt a [cj.1] = some cj.2 ∧ trieHas a [cj.1] = true := by
    intro cj hcj
    obtain ⟨c, j⟩ := cj
    have hna : nodeAt a ([] ++ [c]) = some j := by
      apply (child_mem_iff W (trieHas_nil a) c j).mp
      rw [hIroot, ← hL]
      exact hcj
    rw [List.nil_append] at hna
    exact ⟨hna, by rw [trieHas, hna]; rfl⟩
  have hsndnd : (L.map Prod.snd).Nodup := by
    have : L.map Prod.snd = L.map (fun cj => idxOf a [cj.1]) :=
      List.map_congr_left (fun cj hcj => (idxOf_eq_of_nodeAt (hvals cj hcj).1).symm)
    rw [this]
    refine List.Nodup.map_on ?_ ?_
    · intro cj1 h1 cj2 h2 heq
      have := idxOf_inj W (hvals cj1 h1).2 (hvals cj2 h2).2 heq
      have hc : cj1.1 = cj2.1 := by
        have := List.singleton_inj.mp this
        exact this
      have hkeys := W.keys_nodup 0
      rw [← hL] at hkeys
      have hj : cj1.2 = cj2.2 := by
        have e1 := childLookup_of_mem hkeys (show (cj1.1, cj1.2) ∈ L from h1)
        have e2 := childLookup_of_mem hkeys (show (cj2.1, cj2.2) ∈ L from h2)
        rw [hc] at e1
        rw [e1] at e2
        exact (Option.some.inj e2)
      obtain ⟨x1, y1⟩ := cj1
      obtain ⟨x2, y2⟩ := cj2
      simp only at hc hj
      rw [hc, hj]
    · have hkeys := W.keys_nodup 0
      rw [← hL] at hkeys
      exact List.Nodup.of_map Prod.fst hkeys
  obtain ⟨hq0, hlen0, hk0, hmem0⟩ := buildInit_fold_spec L a []
    (fun cj hcj => nodeAt_lt W (hvals cj hcj).1) hsndnd
  have hBI1 : (buildInit a).1 = (L.foldl (fun r cj =>
      (setNode r.1 cj.2 (fun n => { n with fail := some 0 }), r.2 ++ [cj.2])) (a, [])).1 := rfl
  have hBI2 : (buildInit a).2 = (L.foldl (fun r cj =>
      (setNode r.1 cj.2 (fun n => { n with fail := some 0 }), r.2 ++ [cj.2])) (a, [])).2 := rfl
  set CS0 := L.map (fun cj => [cj.1]) with hCS0
  have hfields0 : ∀ k, (getNode (buildInit a).1 k).children = (getNode a k).children ∧
      (getNode (buildInit a).1 k).output = (getNode a k).output := by
    intro k
    rw [hBI1]
    by_cases hk : k ∈ L.map Prod.snd
    · obtain ⟨cj, hcj, rfl⟩ := List.mem_map.mp hk
      rw [hmem0 cj hcj]
      exact ⟨rfl, rfl⟩
    · rw [hk0 k hk]
      exact ⟨rfl, rfl⟩
  have hmemCS0 : ∀ s, s ∈ CS0 ↔ ∃ c, trieHas a [c] = true ∧ s = [c] := by
    intro s
    constructor
    · intro hs
      obtain ⟨cj, hcj, rfl⟩ := List.mem_map.mp hs
      exact ⟨cj.1, (hvals cj hcj).2, rfl⟩
    · rintro ⟨c, hc, rfl⟩
      have hna := trieHas_nodeAt hc
      have : nodeAt a ([] ++ [c]) = some (idxOf a [c]) := by rw [List.nil_append]; exact hna
      rw [nodeAt_concat, nodeAt_nil] at this
      simp only [Option.some_bind] at this
      have hmem2 := childLookup_mem this
      have : (c, idxOf a [c]) ∈ L := by
        rw [hL]
        have hg : getNode a (idxOf a []) = getNode a 0 := by rw [hIroot]
        rw [← hg]
        rw [hIroot]
        exact hmem2
      exact List.mem_map.mpr ⟨(c, idxOf a [c]), this, rfl⟩
  have hsndidx : L.map Prod.snd = CS0.map (idxOf a) := by
    rw [hCS0, List.map_map]
    exact List.map_congr_left (fun cj hcj => (idxOf_eq_of_nodeAt (hvals cj hcj).1).symm)
  refine ⟨?_, ?_, ?_, ?_, ?_, ?_, ?_, ?_, ?_, ?_, ?_⟩
  · rw [hBI1, hlen0]
  · intro j
    exact (hfields0 j).1
  · rw [hBI2, hq0, hsndidx]
    rfl
  · intro s hs
    rw [List.nil_append] at hs
    obtain ⟨c, hc, rfl⟩ := (hmemCS0 s).mp hs
    exact ⟨hc, by simp⟩
  · rw [List.nil_append]
    have hCS02 : CS0 = (L.map Prod.fst).map (fun c => [c]) := by
      rw [hCS0, List.map_map]
      rfl
    rw [hCS02]
    refine List.Nodup.map ?_ ?_
    · intro x y h
      simpa using h
    · have hkeys := W.keys_nodup 0
      rw [← hL] at hkeys
      exact hkeys
  · apply List.pairwise_of_forall_mem_list
    intro s hs t ht
    obtain ⟨c, _, rfl⟩ := (hmemCS0 s).mp hs
    obtain ⟨d, _, rfl⟩ := (hmemCS0 t).mp ht
    simp
  · intro f hf t ht
    obtain ⟨c, _, rfl⟩ := (hmemCS0 t).mp ht
    simp
  · intro s hs1 hs2 hcond
    exfalso
    obtain ⟨c, cs, rfl⟩ : ∃ c cs, s = c :: cs := by
      cases s with
      | nil => exact absurd rfl hs2
      | cons c cs => exact ⟨c, cs, rfl⟩
    have hc : trieHas a [c] = true := by
      have : (c :: cs) = [c] ++ cs := rfl
      rw [this] at hs1
      exact trieHas_of_append hs1
    have hmemc : [c] ∈ CS0 := (hmemCS0 [c]).mpr ⟨c, hc, rfl⟩
    have := hcond [c] hmemc
    simp at this
  · intro s hs1 hs2
    rw [List.nil_append]
    constructor
    · intro hmem
      obtain ⟨c, _, rfl⟩ := (hmemCS0 s).mp hmem
      exact Or.inl (by simp)
    · rintro (h1 | h1)
      · obtain ⟨c, rfl⟩ := List.length_eq_one.mp h1
        exact (hmemCS0 [c]).mpr ⟨c, hs1, rfl⟩
      · exact absurd h1 (List.not_mem_nil _)
  · intro s hs
    rw [List.nil_append] at hs
    obtain ⟨cj, hcj, rfl⟩ := List.mem_map.mp hs
    have hidx : idxOf a [cj.1] = cj.2 := idxOf_eq_of_nodeAt (hvals cj hcj).1
    constructor
    · rw [hidx, hBI1, hmem0 cj hcj]
      have hfs : failSpec a [cj.1] = [] := by
        have : ([cj.1] : List Char) = cj.1 :: [] := rfl
        rw [this, failSpec_eq_longSuffix_tail, longSuffix_nil]
      rw [hfs, idxOf_nil]
    · rw [hidx, hBI1, hmem0 cj hcj]
      have hfs : failSpec a [cj.1] = [] := by
        have : ([cj.1] : List Char) = cj.1 :: [] := rfl
        rw [this, failSpec_eq_longSuffix_tail, longSuffix_nil]
      rw [outStar_unfold (by simp : ([cj.1] : List Char) ≠ []), hfs, if_pos rfl,
        List.append_nil, hidx]
  · intro s hs1 hnot
    rw [List.nil_append] at hnot
    rw [hBI1]
    apply hk0
    intro hcon
    rw [hsndidx] at hcon
    obtain ⟨t, htmem, heq⟩ := List.mem_map.mp hcon
    obtain ⟨c, hc, rfl⟩ := (hmemCS0 t).mp htmem
    have heq2 := idxOf_inj W hc hs1 heq
    exact hnot (heq2 ▸ htmem)

/-- Main characterization of `BuildFailureLinks` over any well-formed base
arena: the trie shape and the root are untouched, and every non-root node
gets failure link `failSpec` and output `outStar`. -/
theorem BuildFailureLinks_spec {a : AhoCorasick} (pre : PreWF a) :
    (BuildFailureLinks a).nodes.length = a.nodes.length ∧
    (∀ j, (getNode (BuildFailureLinks a) j).children = (getNode a j).children) ∧
    getNode (BuildFailureLinks a) 0 = getNode a 0 ∧
    (∀ s, trieHas a s = true → s ≠ [] → bfsFinal a (BuildFailureLinks a) s) := by
  have hBF : BuildFailureLinks a =
      buildLoop a.nodes.length (buildInit a).1 (buildInit a).2 := rfl
  rw [hBF]
  exact buildLoop_spec pre.str pre.root_fail a.nodes.length (buildInit a).1 (buildInit a).2
    [] ((getNode a 0).children.map (fun cj => [cj.1])) (buildInit_spec pre.str)
    (by simp)

theorem trieWF_to_preWF {P : List (List Char)} {a : AhoCorasick}
    (W : TrieWF P a) : PreWF a := ⟨W.str, W.fail_none 0⟩

theorem build_structWF {a : AhoCorasick} (pre : PreWF a) :
    StructWF (BuildFailureLinks a) := by
  obtain ⟨h1, h2, _, _⟩ := BuildFailureLinks_spec pre
  exact structWF_of_children_eq h1 h2 pre.str

theorem build_preserves_preWF {a : AhoCorasick} (pre : PreWF a) :
    PreWF (BuildFailureLinks a) := by
  refine ⟨build_structWF pre, ?_⟩
  obtain ⟨_, _, h3, _⟩ := BuildFailureLinks_spec pre
  rw [h3]
  exact pre.root_fail

theorem build_nodeAt {a : AhoCorasick} (pre : PreWF a) (s : List Char) :
    nodeAt (BuildFailureLinks a) s = nodeAt a s :=
  nodeAt_congr (BuildFailureLinks_spec pre).2.1 s

/-- C2.  After `BuildFailureLinks`, every non-root node's failure link
points at the node whose prefix is the longest proper suffix of the node's
own prefix that is also a prefix of some inserted pattern (the root — the
empty prefix — when no nonempty such suffix exists). -/
theorem c2_failure_links_longest_suffix (P : List (List Char)) (s : List Char) (j : Nat)
    (hs : nodeAt (BuildFailureLinks (insertAll P)) s = some j) (hne : s ≠ []) :
    ∃ t k, (getNode (BuildFailureLinks (insertAll P)) j).fail = some k ∧
      nodeAt (BuildFailureLinks (insertAll P)) t = some k ∧
      t <:+ s ∧ t ≠ s ∧
      (t = [] ∨ ∃ p, p ∈ P ∧ t <+: p) ∧
      (∀ u, u <:+ s → u ≠ s → (∃ p, p ∈ P ∧ u <+: p) → u.length ≤ t.length) := by
  have W := insertAll_wf P
  have pre := trieWF_to_preWF W
  set a := insertAll P with ha
  have hsa : nodeAt a s = some j := by rw [← build_nodeAt pre s]; exact hs
  have htrie : trieHas a s = true := by rw [trieHas, hsa]; rfl
  have hidx : idxOf a s = j := idxOf_eq_of_nodeAt hsa
  obtain ⟨_, _, _, hfin⟩ := BuildFailureLinks_spec pre
  obtain ⟨hfail, _⟩ := hfin s htrie hne
  rw [hidx] at hfail
  refine ⟨failSpec a s, idxOf a (failSpec a s), hfail, ?_, ?_, ?_, ?_, ?_⟩
  · rw [build_nodeAt pre]
    exact trieHas_nodeAt (failSpec_trieHas hne)
  · exact (failSpec_suffix hne).1
  · intro hcon
    have := (failSpec_suffix (a := a) hne).2
    rw [hcon] at this
    omega
  · have := (W.mem_iff (failSpec a s)).mp (failSpec_trieHas hne)
    exact this
  · intro u hu hune hupfx
    apply failSpec_longest hu hune
    have hm : (nodeAt a u).isSome := (W.mem_iff u).mpr (Or.inr hupfx)
    simpa [trieHas] using hm

theorem c2_witness :
    ∃ t k,
      (getNode (BuildFailureLinks (insertAll [['a','b'], ['b']])) 2).fail = some k ∧
      nodeAt (BuildFailureLinks (insertAll [['a','b'], ['b']])) t = some k ∧
      t <:+ ['a','b'] ∧ t ≠ ['a','b'] ∧
      (t = [] ∨ ∃ p, p ∈ [['a','b'], ['b']] ∧ t <+: p) ∧
      (∀ u, u <:+ ['a','b'] → u ≠ ['a','b'] →
        (∃ p, p ∈ [['a','b'], ['b']] ∧ u <+: p) → u.length ≤ t.length) :=
  c2_failure_links_longest_suffix [['a','b'], ['b']] ['a','b'] 2 (by decide) (by decide)

theorem failSpec_congr {a b : AhoCorasick}
    (h : ∀ t, trieHas a t = trieHas b t) (s : List Char) :
    failSpec a s = failSpec b s := by
  unfold failSpec
  rw [List.filter_congr (fun t _ => h t)]

theorem build_trieHas {a : AhoCorasick} (pre : PreWF a) (s : List Char) :
    trieHas (BuildFailureLinks a) s = trieHas a s := by
  rw [trieHas, trieHas, build_nodeAt pre]

theorem build_idxOf {a : AhoCorasick} (pre : PreWF a) (s : List Char) :
    idxOf (BuildFailureLinks a) s = idxOf a s := by
  rw [idxOf, idxOf, build_nodeAt pre]

theorem build_failSpec {a : AhoCorasick} (pre : PreWF a) (s : List Char) :
    failSpec (BuildFailureLinks a) s = failSpec a s :=
  failSpec_congr (build_trieHas pre) s

/-- Running `outStar` over an already-compiled arena yields the same SET of
patterns as over the pre-build arena: each node's compiled output already
absorbs its failure chain, so re-absorbing only duplicates elements. -/
theorem build_outStar_mem {a : AhoCorasick} (pre : PreWF a) :
    ∀ {s : List Char}, trieHas a s = true → s ≠ [] →
      ∀ q, q ∈ outStar (BuildFailureLinks a) s ↔ q ∈ outStar a s := by
  obtain ⟨hlen, hch, hroot, hfin⟩ := BuildFailureLinks_spec pre
  have key : ∀ n (s : List Char), s.length ≤ n → trieHas a s = true → s ≠ [] →
      ∀ q, q ∈ outStar (BuildFailureLinks a) s ↔ q ∈ outStar a s := by
    intro n
    induction n with
    | zero =>
      intro s hs _ hne
      exact absurd (List.length_eq_zero.mp (Nat.le_zero.mp hs)) hne
    | succ n ih =>
      intro s hs htrie hne q
      rw [outStar_unfold hne, build_idxOf pre, build_failSpec pre,
        (hfin s htrie hne).2]
      by_cases hf : failSpec a s = []
      · rw [if_pos hf, List.append_nil]
      · rw [if_neg hf]
        have hfst : trieHas a (failSpec a s) = true := failSpec_trieHas hne
        have hlt : (failSpec a s).length < s.length := (failSpec_suffix hne).2
        have hIH := ih (failSpec a s) (by omega) hfst hf q
        rw [List.mem_append, hIH]
        constructor
        · rintro (h | h)
          · exact h
          · rw [outStar_unfold hne, if_neg hf, List.mem_append]
            exact Or.inr h
        · intro h
          exact Or.inl h
  intro s htrie hne q
  exact key s.length s le_rfl htrie hne q

/-- C5.  Calling `BuildFailureLinks` twice in succession with no
insertions in between leaves every node's failure link identical and every
node's output set identical to their state after the first call: exactly
what the claim asserts.  (The output LISTS do change — merged entries are
appended again — but the claim compares outputs as sets.) -/
theorem c5_second_build (P : List (List Char)) :
    (∀ j, (getNode (BuildFailureLinks (BuildFailureLinks (insertAll P))) j).fail =
      (getNode (BuildFailureLinks (insertAll P)) j).fail) ∧
    (∀ j q, q ∈ (getNode (BuildFailureLinks (BuildFailureLinks (insertAll P))) j).output ↔
      q ∈ (getNode (BuildFailureLinks (insertAll P)) j).output) := by
  have W := insertAll_wf P
  have pre := trieWF_to_preWF W
  have pre1 : PreWF (BuildFailureLinks (insertAll P)) := build_preserves_preWF pre
  obtain ⟨hlen1, hch1, hroot1, hfin1⟩ := BuildFailureLinks_spec pre
  obtain ⟨hlen2, hch2, hroot2, hfin2⟩ := BuildFailureLinks_spec pre1
  have hcase : ∀ j, j = 0 ∨ (insertAll P).nodes.length ≤ j ∨
      ∃ s, s ≠ [] ∧ nodeAt (insertAll P) s = some j := by
    intro j
    by_cases hj : j < (insertAll P).nodes.length
    · obtain ⟨s, hs⟩ := pre.str.surj j hj
      by_cases hne : s = []
      · subst hne
        rw [nodeAt_nil] at hs
        exact Or.inl (Option.some_injective _ hs).symm
      · exact Or.inr (Or.inr ⟨s, hne, hs⟩)
    · exact Or.inr (Or.inl (by omega))
  constructor
  · intro j
    rcases hcase j with hj | hj | ⟨s, hne, hs⟩
    · subst hj
      rw [hroot2]
    · have hj1 : (BuildFailureLinks (insertAll P)).nodes.length ≤ j := by
        rw [hlen1]; exact hj
      have hj2 : (BuildFailureLinks (BuildFailureLinks (insertAll P))).nodes.length ≤ j := by
        rw [hlen2]; exact hj1
      rw [getNode_of_le hj1, getNode_of_le hj2]
    · have htrie : trieHas (insertAll P) s = true := by rw [trieHas, hs]; rfl
      have htrie1 : trieHas (BuildFailureLinks (insertAll P)) s = true := by
        rw [build_trieHas pre]; exact htrie
      have hjidx : idxOf (insertAll P) s = j := idxOf_eq_of_nodeAt hs
      have h2 := (hfin2 s htrie1 hne).1
      rw [build_idxOf pre, build_failSpec pre, build_idxOf pre, hjidx] at h2
      have h1 := (hfin1 s htrie hne).1
      rw [hjidx] at h1
      rw [h1, h2]
  · intro j q
    rcases hcase j with hj | hj | ⟨s, hne, hs⟩
    · subst hj
      rw [hroot2]
    · have hj1 : (BuildFailureLinks (insertAll P)).nodes.length ≤ j := by
        rw [hlen1]; exact hj
      have hj2 : (BuildFailureLinks (BuildFailureLinks (insertAll P))).nodes.length ≤ j := by
        rw [hlen2]; exact hj1
      rw [getNode_of_le hj1, getNode_of_le hj2]
    · have htrie : trieHas (insertAll P) s = true := by rw [trieHas, hs]; rfl
      have htrie1 : trieHas (BuildFailureLinks (insertAll P)) s = true := by
        rw [build_trieHas pre]; exact htrie
      have hjidx : idxOf (insertAll P) s = j := idxOf_eq_of_nodeAt hs
      have h2 := (hfin2 s htrie1 hne).2
      rw [build_idxOf pre, hjidx] at h2
      have h1 := (hfin1 s htrie hne).2
      rw [hjidx] at h1
      rw [h1, h2]
      exact build_outStar_mem pre htrie hne q

theorem replicate_count_of_nodup (P : List (List Char)) (t : List Char) (hP : P.Nodup) :
    List.replicate (P.count t) t = if t ∈ P then [t] else [] := by
  induction P with
  | nil => rfl
  | cons p P ih =>
    rw [List.count_cons, List.nodup_cons] at *
    simp only [beq_iff_eq]
    by_cases he : p = t
    · subst he
      have h0 : P.count p = 0 := List.count_eq_zero.mpr hP.1
      rw [h0, if_pos rfl, if_pos (List.mem_cons_self p P)]
      rfl
    · rw [if_neg he, Nat.add_zero, ih hP.2]
      by_cases hm : t ∈ P
      · rw [if_pos hm, if_pos (List.mem_cons_of_mem p hm)]
      · rw [if_neg hm, if_neg (by simp [hm]; exact fun hc => he hc.symm)]

/-- With each pattern inserted once, a trie node's own output is its string
when that string is a pattern, nothing otherwise. -/
theorem own_output_of_nodup {P : List (List Char)} {a : AhoCorasick}
    (W : TrieWF P a) (hP : P.Nodup) {t : List Char} (ht : trieHas a t = true) :
    (getNode a (idxOf a t)).output = if t ∈ P then [t] else [] := by
  rw [W.output_eq t (idxOf a t) (trieHas_nodeAt ht)]
  exact replicate_count_of_nodup P t hP

/-- Membership in a post-build output list: exactly the patterns equal to
the node's string or to a nonempty element of its failure chain. -/
theorem outStar_mem_iff {P : List (List Char)} {a : AhoCorasick}
    (W : TrieWF P a) (hP : P.Nodup) {s : List Char} (hst : trieHas a s = true)
    (hne : s ≠ []) (q : List Char) :
    q ∈ outStar a s ↔ q ∈ P ∧ (q = s ∨ (q ∈ fsChain a s ∧ q ≠ [])) := by
  rw [outStar_eq_chain hne, List.mem_append, own_output_of_nodup W hP hst,
    List.mem_flatMap]
  constructor
  · rintro (h | ⟨t, ht, hq⟩)
    · by_cases hm : s ∈ P
      · rw [if_pos hm, List.mem_singleton] at h
        exact ⟨h ▸ hm, Or.inl h⟩
      · rw [if_neg hm] at h
        exact absurd h (List.not_mem_nil q)
    · rw [List.mem_filter] at ht
      obtain ⟨htc, htne⟩ := ht
      have htne' : t ≠ [] := by
        intro hc
        rw [hc] at htne
        exact absurd htne (by decide)
      have htt := (fsChain_mem t htc).2.2
      rw [own_output_of_nodup W hP htt] at hq
      by_cases hm : t ∈ P
      · rw [if_pos hm, List.mem_singleton] at hq
        subst hq
        exact ⟨hm, Or.inr ⟨htc, htne'⟩⟩
      · rw [if_neg hm] at hq
        exact absurd hq (List.not_mem_nil q)
  · rintro ⟨hqP, hq | ⟨hqc, hqne⟩⟩
    · subst hq
      rw [if_pos hqP]
      exact Or.inl (List.mem_singleton.mpr rfl)
    · refine Or.inr ⟨q, ?_, ?_⟩
      · rw [List.mem_filter]
        refine ⟨hqc, ?_⟩
        cases q with
        | nil => exact absurd rfl hqne
        | cons c l => rfl
      · have hqt := (fsChain_mem q hqc).2.2
        rw [own_output_of_nodup W hP hqt, if_pos hqP]
        exact List.mem_singleton.mpr rfl

theorem flatMap_eq_filter (P : List (List Char)) (f : List Char → List (List Char)) :
    ∀ L : List (List Char), (∀ t ∈ L, f t = if t ∈ P then [t] else []) →
      L.flatMap f = L.filter (fun t => decide (t ∈ P)) := by
  intro L
  induction L with
  | nil => intro _; rfl
  | cons t L ih =>
    intro h
    rw [List.flatMap_cons, h t (List.mem_cons_self t L),
      ih (fun u hu => h u (List.mem_cons_of_mem t hu))]
    by_cases hm : t ∈ P
    · rw [if_pos hm, List.filter_cons_of_pos (by simpa using hm)]
      rfl
    · rw [if_neg hm, List.filter_cons_of_neg (by simpa using hm), List.nil_append]

/-- With each pattern inserted once, post-build output lists are
duplicate-free. -/
theorem outStar_nodup {P : List (List Char)} {a : AhoCorasick}
    (W : TrieWF P a) (hP : P.Nodup) {s : List Char} (hst : trieHas a s = true)
    (hne : s ≠ []) : (outStar a s).Nodup := by
  rw [outStar_eq_chain hne, own_output_of_nodup W hP hst]
  have hflat : ((fsChain a s).filter (fun t => !t.isEmpty)).flatMap
      (fun t => (getNode a (idxOf a t)).output) =
      ((fsChain a s).filter (fun t => !t.isEmpty)).filter (fun t => decide (t ∈ P)) := by
    apply flatMap_eq_filter
    intro t ht
    rw [List.mem_filter] at ht
    exact own_output_of_nodup W hP (fsChain_mem t ht.1).2.2
  rw [hflat]
  have hsub1 : List.Sublist (((fsChain a s).filter (fun t => !t.isEmpty)).filter
      (fun t => decide (t ∈ P))) (fsChain a s) :=
    (List.filter_sublist _).trans (List.filter_sublist _)
  have hnd2 : (((fsChain a s).filter (fun t => !t.isEmpty)).filter
      (fun t => decide (t ∈ P))).Nodup := (fsChain_nodup a).sublist hsub1
  by_cases hm : s ∈ P
  · rw [if_pos hm]
    refine (List.nodup_singleton s).append hnd2 ?_
    intro x hx hx2
    rw [List.mem_singleton] at hx
    subst hx
    have := (fsChain_mem x (hsub1.mem hx2)).2.1
    omega
  · rw [if_neg hm, List.nil_append]
    exact hnd2

/-- One failure chain absorbs another: anything on the chain of a chain
element is on the original chain. -/
theorem fsChain_trans {a : AhoCorasick} {s t u : List Char}
    (ht : t ∈ fsChain a s) (hu : u ∈ fsChain a t) : u ∈ fsChain a s := by
  obtain ⟨ht1, ht2, _⟩ := fsChain_mem t ht
  obtain ⟨hu1, hu2, hu3⟩ := fsChain_mem u hu
  exact fsChain_complete (hu1.trans ht1) (by intro hc; subst hc; omega) hu3

/-- On the compiled automaton the indices reached by following failure
links from the node of `s` are exactly the nodes of `s`'s failure chain. -/
theorem build_failReach {a : AhoCorasick} (pre : PreWF a) {s : List Char}
    (hst : trieHas a s = true) :
    failReach (BuildFailureLinks a) (idxOf a s) =
      (fsChain a s).map (idxOf a) := by
  obtain ⟨hlen, hch, hroot, hfin⟩ := BuildFailureLinks_spec pre
  have hr0 : (getNode (BuildFailureLinks a) 0).fail = none := by
    rw [hroot]; exact pre.root_fail
  have key : ∀ fuel (s : List Char), s.length ≤ fuel → trieHas a s = true →
      failReachF (BuildFailureLinks a) fuel (idxOf a s) =
        (fsChain a s).map (idxOf a) := by
    intro fuel
    induction fuel with
    | zero =>
      intro s hs _
      rw [List.length_eq_zero.mp (Nat.le_zero.mp hs)]
      rfl
    | succ fuel ih =>
      intro s hs hst
      by_cases hne : s = []
      · subst hne
        rw [fsChain_nil]
        show failReachF (BuildFailureLinks a) (fuel + 1) 0 = []
        rw [failReachF, hr0]
      · rw [failReachF, (hfin s hst hne).1, fsChain_unfold hne, List.map_cons]
        have hlt := (failSpec_suffix (a := a) hne).2
        show idxOf a (failSpec a s) ::
            failReachF (BuildFailureLinks a) fuel (idxOf a (failSpec a s)) = _
        rw [ih (failSpec a s) (by omega) (failSpec_trieHas hne)]
  apply key
  · have := trieHas_length_lt pre.str hst
    rw [(BuildFailureLinks_spec pre).1]
    omega
  · exact hst

/-- C3 (amended).  After `BuildFailureLinks` on distinct patterns, each
node's output list is duplicate-free and holds exactly the patterns ending
at that node together with the patterns in the outputs of the NON-ROOT
nodes reachable from it via failure links: the root's own output (the empty
pattern, when inserted) is never inherited, because the code only merges
when the failure walk resolves to an existing child. -/
theorem c3_amended (P : List (List Char)) (hP : P.Nodup) (s : List Char) (j : Nat)
    (hs : nodeAt (BuildFailureLinks (insertAll P)) s = some j) :
    ((getNode (BuildFailureLinks (insertAll P)) j).output).Nodup ∧
    (∀ q, q ∈ (getNode (BuildFailureLinks (insertAll P)) j).output ↔
      ((q ∈ P ∧ nodeAt (BuildFailureLinks (insertAll P)) q = some j) ∨
       ∃ k, k ∈ failReach (BuildFailureLinks (insertAll P)) j ∧ k ≠ 0 ∧
         q ∈ (getNode (BuildFailureLinks (insertAll P)) k).output)) := by
  have W := insertAll_wf P
  have pre := trieWF_to_preWF W
  obtain ⟨hlen, hch, hroot, hfin⟩ := BuildFailureLinks_spec pre
  have hsa : nodeAt (insertAll P) s = some j := by
    rw [← build_nodeAt pre s]; exact hs
  have htrie : trieHas (insertAll P) s = true := by rw [trieHas, hsa]; rfl
  have hjidx : idxOf (insertAll P) s = j := idxOf_eq_of_nodeAt hsa
  by_cases hne : s = []
  · subst hne
    rw [nodeAt_nil] at hsa
    have hj0 : j = 0 := (Option.some_injective _ hsa).symm
    subst hj0
    have hrout : (getNode (BuildFailureLinks (insertAll P)) 0).output
        = if ([] : List Char) ∈ P then [([] : List Char)] else [] := by
      rw [hroot]
      exact own_output_of_nodup W hP (trieHas_nil (insertAll P))
    have hfr : failReach (BuildFailureLinks (insertAll P)) 0 = [] := by
      rw [failReach]
      obtain ⟨m, hm⟩ : ∃ m, (BuildFailureLinks (insertAll P)).nodes.length = m + 1 := by
        have hlp := pre.str.len_pos
        exact ⟨(BuildFailureLinks (insertAll P)).nodes.length - 1, by omega⟩
      rw [hm, failReachF, hroot, pre.root_fail]
    constructor
    · rw [hrout]
      by_cases hm : ([] : List Char) ∈ P
      · rw [if_pos hm]; exact List.nodup_singleton _
      · rw [if_neg hm]; exact List.nodup_nil
    · intro q
      rw [hrout, hfr]
      constructor
      · intro hq
        by_cases hm : ([] : List Char) ∈ P
        · rw [if_pos hm, List.mem_singleton] at hq
          subst hq
          refine Or.inl ⟨hm, ?_⟩
          rw [build_nodeAt pre, nodeAt_nil]
        · rw [if_neg hm] at hq
          exact absurd hq (List.not_mem_nil q)
      · rintro (⟨hqP, hqn⟩ | ⟨k, hk, -, -⟩)
        · have hqa : nodeAt (insertAll P) q = some 0 := by
            rw [← build_nodeAt pre]; exact hqn
          have hq0 : q = [] := pre.str.inj q [] 0 hqa (nodeAt_nil _)
          subst hq0
          rw [if_pos hqP]
          exact List.mem_singleton.mpr rfl
        · exact absurd hk (List.not_mem_nil k)
  · have hout : (getNode (BuildFailureLinks (insertAll P)) j).output
        = outStar (insertAll P) s := by
      have h := (hfin s htrie hne).2
      rw [hjidx] at h
      exact h
    have hfrj : failReach (BuildFailureLinks (insertAll P)) j
        = (fsChain (insertAll P) s).map (idxOf (insertAll P)) := by
      rw [← hjidx]
      exact build_failReach pre htrie
    constructor
    · rw [hout]
      exact outStar_nodup W hP htrie hne
    · intro q
      rw [hout, outStar_mem_iff W hP htrie hne]
      constructor
      · rintro ⟨hqP, hq | ⟨hqc, hqne⟩⟩
        · subst hq
          exact Or.inl ⟨hqP, hs⟩
        · refine Or.inr ⟨idxOf (insertAll P) q, ?_, ?_, ?_⟩
          · rw [hfrj]
            exact List.mem_map_of_mem _ hqc
          · intro hc
            have hqt := (fsChain_mem q hqc).2.2
            have hq0 : q = [] := idxOf_inj pre.str hqt (trieHas_nil _) (by rw [hc]; rfl)
            exact hqne hq0
          · have hqt := (fsChain_mem q hqc).2.2
            have h := (hfin q hqt hqne).2
            rw [h, outStar_mem_iff W hP hqt hqne]
            exact ⟨hqP, Or.inl rfl⟩
      · rintro (⟨hqP, hqn⟩ | ⟨k, hk, hk0, hkq⟩)
        · have hqa : nodeAt (insertAll P) q = some j := by
            rw [← build_nodeAt pre]; exact hqn
          exact ⟨hqP, Or.inl (pre.str.inj q s j hqa hsa)⟩
        · rw [hfrj] at hk
          obtain ⟨t, htc, htk⟩ := List.mem_map.mp hk
          have htt := (fsChain_mem t htc).2.2
          have htne : t ≠ [] := by
            intro hc
            subst hc
            apply hk0
            rw [← htk]
            rfl
          have hot := (hfin t htt htne).2
          rw [htk] at hot
          rw [hot, outStar_mem_iff W hP htt htne] at hkq
          obtain ⟨hqP, hq | ⟨hqc, hqne⟩⟩ := hkq
          · subst hq
            exact ⟨hqP, Or.inr ⟨htc, htne⟩⟩
          · exact ⟨hqP, Or.inr ⟨fsChain_trans htc hqc, hqne⟩⟩

theorem c3_witness :
    ((getNode (BuildFailureLinks (insertAll [['a'], ['b','a']])) 3).output).Nodup ∧
    (∀ q, q ∈ (getNode (BuildFailureLinks (insertAll [['a'], ['b','a']])) 3).output ↔
      ((q ∈ [['a'], ['b','a']] ∧
         nodeAt (BuildFailureLinks (insertAll [['a'], ['b','a']])) q = some 3) ∨
       ∃ k, k ∈ failReach (BuildFailureLinks (insertAll [['a'], ['b','a']])) 3 ∧ k ≠ 0 ∧
         q ∈ (getNode (BuildFailureLinks (insertAll [['a'], ['b','a']])) k).output)) :=
  c3_amended [['a'], ['b','a']] (by decide) ['b','a'] 3 (by decide)

/-- On the compiled automaton, `Search`'s failure walk starting at the node
of the trie string `t` on character `c` stops at the node of the longest
suffix of `t` extendable by `c` (the root if none is). -/
theorem searchWalk_spec {a : AhoCorasick} (pre : PreWF a) (c : Char) :
    ∀ fuel (t : List Char), t.length + 1 ≤ fuel → trieHas a t = true →
      searchWalk (BuildFailureLinks a) c fuel (some (idxOf a t)) =
        some (idxOf a (match longestExt a t c with
          | some u => u
          | none => [])) := by
  obtain ⟨hblen, hch, hroot, hfin⟩ := BuildFailureLinks_spec pre
  intro fuel
  induction fuel with
  | zero =>
    intro t h _
    omega
  | succ fuel ih =>
    intro t hlenle ht
    by_cases hne : t = []
    · subst hne
      cases hle : longestExt a [] c with
      | none => rfl
      | some u =>
        have hu : u = [] := List.suffix_nil.mp (longestExt_some hle).1
        subst hu
        rfl
    · have hidx0 : idxOf a t ≠ 0 := fun hc =>
        hne (idxOf_inj pre.str ht (trieHas_nil a) (by rw [hc]; rfl))
      show (if idxOf a t = 0 then some (idxOf a t) else
          match childLookup (getNode (BuildFailureLinks a) (idxOf a t)).children c with
          | some _ => some (idxOf a t)
          | none => searchWalk (BuildFailureLinks a) c fuel
              (getNode (BuildFailureLinks a) (idxOf a t)).fail) = _
      rw [if_neg hidx0, hch, trieHas_concat_child ht]
      cases hcl : nodeAt a (t ++ [c]) with
      | some j =>
        have h2 : trieHas a (t ++ [c]) = true := by rw [trieHas, hcl]; rfl
        rw [longestExt_self ht h2]
      | none =>
        have hnot : trieHas a (t ++ [c]) = false := by rw [trieHas, hcl]; rfl
        show searchWalk (BuildFailureLinks a) c fuel
            (getNode (BuildFailureLinks a) (idxOf a t)).fail = _
        rw [(hfin t ht hne).1]
        have hflt := (failSpec_suffix (a := a) hne).2
        rw [ih (failSpec a t) (by omega) (failSpec_trieHas hne),
          longestExt_step hnot hne]

theorem searchWalk_spec_some {a : AhoCorasick} (pre : PreWF a) {c : Char}
    {t u : List Char} (hle : longestExt a t c = some u) (fuel : Nat)
    (hf : t.length + 1 ≤ fuel) (ht : trieHas a t = true) :
    searchWalk (BuildFailureLinks a) c fuel (some (idxOf a t)) =
      some (idxOf a u) := by
  rw [searchWalk_spec pre c fuel t hf ht, hle]

theorem searchWalk_spec_none {a : AhoCorasick} (pre : PreWF a) {c : Char}
    {t : List Char} (hle : longestExt a t c = none) (fuel : Nat)
    (hf : t.length + 1 ≤ fuel) (ht : trieHas a t = true) :
    searchWalk (BuildFailureLinks a) c fuel (some (idxOf a t)) = some 0 := by
  rw [searchWalk_spec pre c fuel t hf ht, hle]
  rfl

/-- The scan loop of `Search` on the compiled automaton computes
`canonLoop`: starting at the node of the longest trie suffix of the
consumed text `u`, it never fails and matches the canonical description. -/
theorem searchLoop_spec {a : AhoCorasick} (pre : PreWF a) :
    ∀ (cs u : List Char) (index : Nat) (result : List (List Char × List Int)),
      searchLoop (BuildFailureLinks a) cs index (idxOf a (longSuffix a u)) result =
        some (canonLoop a u cs index result) := by
  obtain ⟨hblen, hch, hroot, hfin⟩ := BuildFailureLinks_spec pre
  intro cs
  induction cs with
  | nil =>
    intro u index result
    rfl
  | cons c cs ih =>
    intro u index result
    have hts : trieHas a (longSuffix a u) = true := longSuffix_trieHas a u
    have hfuel : (longSuffix a u).length + 1 ≤ (BuildFailureLinks a).nodes.length := by
      have := trieHas_length_lt pre.str hts
      rw [hblen]
      omega
    cases hle : longestExt a (longSuffix a u) c with
    | some w =>
      obtain ⟨hw1, hw2, hw3⟩ := longestExt_some hle
      have hσ : longSuffix a (u ++ [c]) = w ++ [c] := by
        rw [longSuffix_concat a u c, hle]
      rw [searchLoop, searchWalk_spec_some pre hle _ hfuel hts]
      show searchLoop (BuildFailureLinks a) cs (index + c.utf8Size)
          ((childLookup (getNode (BuildFailureLinks a) (idxOf a w)).children c).getD
            (idxOf a w))
          (recordOutputs (index : Int) result
            (getNode (BuildFailureLinks a)
              ((childLookup (getNode (BuildFailureLinks a) (idxOf a w)).children c).getD
                (idxOf a w))).output) = _
      have hcl : childLookup (getNode (BuildFailureLinks a) (idxOf a w)).children c
          = some (idxOf a (w ++ [c])) := by
        rw [hch, trieHas_concat_child hw2, trieHas_nodeAt hw3]
      rw [hcl]
      simp only [Option.getD_some]
      have hout : (getNode (BuildFailureLinks a) (idxOf a (w ++ [c]))).output
          = outStar a (w ++ [c]) :=
        (hfin (w ++ [c]) hw3 (by simp)).2
      rw [hout, canonLoop, hσ]
      have ih' := ih (u ++ [c]) (index + c.utf8Size)
        (recordOutputs (index : Int) result (outStar a (w ++ [c])))
      rw [hσ] at ih'
      exact ih'
    | none =>
      have hσ : longSuffix a (u ++ [c]) = [] := by
        rw [longSuffix_concat a u c, hle]
      rw [searchLoop, searchWalk_spec_none pre hle _ hfuel hts]
      show searchLoop (BuildFailureLinks a) cs (index + c.utf8Size)
          ((childLookup (getNode (BuildFailureLinks a) 0).children c).getD 0)
          (recordOutputs (index : Int) result
            (getNode (BuildFailureLinks a)
              ((childLookup (getNode (BuildFailureLinks a) 0).children c).getD 0)).output)
          = _
      have hcl0 : childLookup (getNode a 0).children c = nodeAt a [c] :=
        trieHas_concat_child (trieHas_nil a) c
      have hc0 : nodeAt a [c] = none := by
        cases hh : nodeAt a [c] with
        | none => rfl
        | some j =>
          have hj : trieHas a ([] ++ [c]) = true := by
            rw [List.nil_append, trieHas, hh]
            rfl
          exact (longestExt_none hle [] List.nil_suffix (trieHas_nil a) hj).elim
      rw [hch, hcl0, hc0]
      simp only [Option.getD_none]
      have hout0 : (getNode (BuildFailureLinks a) 0).output = outStar a [] := by
        rw [hroot]
        exact (outStar_nil a).symm
      rw [hout0, canonLoop, hσ]
      have ih' := ih (u ++ [c]) (index + c.utf8Size)
        (recordOutputs (index : Int) result (outStar a []))
      rw [hσ] at ih'
      exact ih'

/-- `Search` on the compiled automaton never fails and returns the
canonical result. -/
theorem Search_eq_canon {a : AhoCorasick} (pre : PreWF a) (text : List Char) :
    Search (BuildFailureLinks a) text = some (canonSearch a text) :=
  searchLoop_spec pre text [] 0 []

/-- C9.  On every automaton built by inserting any pattern list into a
fresh automaton and calling `BuildFailureLinks`, `Search` completes its
single left-to-right pass on every text: the failure walk always resolves
(modelled: it never hits a nil failure link nor runs out of fuel), so a
result is always returned. -/
theorem c9_search_never_fails (P : List (List Char)) (text : List Char) :
    ∃ r, Search (BuildFailureLinks (insertAll P)) text = some r :=
  ⟨canonSearch (insertAll P) text,
    Search_eq_canon (trieWF_to_preWF (insertAll_wf P)) text⟩

theorem count_perm (t : List Char) :
    ∀ {P Q : List (List Char)}, P.Perm Q → P.count t = Q.count t := by
  intro P Q h
  induction h with
  | nil => rfl
  | cons x h ih => rw [List.count_cons, List.count_cons, ih]
  | swap x y l =>
    rw [List.count_cons, List.count_cons, List.count_cons, List.count_cons]
    ring
  | trans h1 h2 ih1 ih2 => rw [ih1, ih2]

theorem longSuffix_congr {a b : AhoCorasick}
    (h : ∀ t, trieHas a t = trieHas b t) (u : List Char) :
    longSuffix a u = longSuffix b u := by
  unfold longSuffix
  rw [List.filter_congr (fun t _ => h t)]

theorem fsChainF_arena_congr {a b : AhoCorasick}
    (h : ∀ t, trieHas a t = trieHas b t) :
    ∀ fuel (s : List Char), fsChainF a fuel s = fsChainF b fuel s := by
  intro fuel
  induction fuel with
  | zero => intro s; rfl
  | succ fuel ih =>
    intro s
    rw [fsChainF, fsChainF]
    by_cases hs : s = []
    · rw [if_pos hs, if_pos hs]
    · rw [if_neg hs, if_neg hs, failSpec_congr h s, ih]

theorem outStarF_arena_congr {a b : AhoCorasick}
    (h1 : ∀ t, trieHas a t = trieHas b t)
    (h2 : ∀ t, trieHas a t = true →
      (getNode a (idxOf a t)).output = (getNode b (idxOf b t)).output) :
    ∀ fuel (s : List Char), trieHas a s = true →
      outStarF a fuel s = outStarF b fuel s := by
  intro fuel
  induction fuel with
  | zero =>
    intro s hs
    exact h2 s hs
  | succ fuel ih =>
    intro s hs
    rw [outStarF, outStarF]
    by_cases hne : s = []
    · rw [if_pos hne, if_pos hne]
      exact h2 s hs
    · rw [if_neg hne, if_neg hne, h2 s hs, failSpec_congr h1 s]
      by_cases hf : failSpec b s = []
      · rw [if_pos hf, if_pos hf]
      · rw [if_neg hf, if_neg hf]
        have hft : trieHas a (failSpec b s) = true := by
          rw [← failSpec_congr h1 s]
          exact failSpec_trieHas hne
        rw [ih (failSpec b s) hft]

theorem outStar_arena_congr {a b : AhoCorasick}
    (h1 : ∀ t, trieHas a t = trieHas b t)
    (h2 : ∀ t, trieHas a t = true →
      (getNode a (idxOf a t)).output = (getNode b (idxOf b t)).output)
    {s : List Char} (hs : trieHas a s = true) :
    outStar a s = outStar b s :=
  outStarF_arena_congr h1 h2 s.length s hs

theorem canonLoop_arena_congr {a b : AhoCorasick}
    (h1 : ∀ t, trieHas a t = trieHas b t)
    (h2 : ∀ t, trieHas a t = true →
      (getNode a (idxOf a t)).output = (getNode b (idxOf b t)).output) :
    ∀ (cs u : List Char) (index : Nat) (r : List (List Char × List Int)),
      canonLoop a u cs index r = canonLoop b u cs index r := by
  intro cs
  induction cs with
  | nil => intro u index r; rfl
  | cons c cs ih =>
    intro u index r
    rw [canonLoop, canonLoop, longSuffix_congr h1 (u ++ [c])]
    have hbt : trieHas a (longSuffix b (u ++ [c])) = true := by
      rw [h1]
      exact longSuffix_trieHas b (u ++ [c])
    rw [outStar_arena_congr h1 h2 hbt, ih]

/-- C10.  Inserting the same patterns in two different orders (any two
sequences of `AddPattern` calls that are permutations of one another), then
compiling, makes `Search` return the same result on every text: same keys
and, for each key, the same ordered position list. -/
theorem c10_insertion_order_irrelevant (P₁ P₂ : List (List Char))
    (text : List Char) (hperm : P₁.Perm P₂) :
    Search (BuildFailureLinks (insertAll P₁)) text =
      Search (BuildFailureLinks (insertAll P₂)) text := by
  have W1 := insertAll_wf P₁
  have W2 := insertAll_wf P₂
  have h1 : ∀ t, trieHas (insertAll P₁) t = trieHas (insertAll P₂) t := by
    intro t
    have hpfx : pfxIn P₁ t ↔ pfxIn P₂ t := by
      unfold pfxIn
      constructor
      · rintro (h | ⟨p, hp, hpre⟩)
        · exact Or.inl h
        · exact Or.inr ⟨p, hperm.mem_iff.mp hp, hpre⟩
      · rintro (h | ⟨p, hp, hpre⟩)
        · exact Or.inl h
        · exact Or.inr ⟨p, hperm.mem_iff.mpr hp, hpre⟩
    have hiff : (trieHas (insertAll P₁) t = true) ↔ (trieHas (insertAll P₂) t = true) :=
      (W1.mem_iff t).trans (hpfx.trans (W2.mem_iff t).symm)
    cases hb1 : trieHas (insertAll P₁) t <;> cases hb2 : trieHas (insertAll P₂) t
    · rfl
    · rw [hb1, hb2] at hiff
      exact absurd (hiff.mpr rfl) (by decide)
    · rw [hb1, hb2] at hiff
      exact absurd (hiff.mp rfl) (by decide)
    · rfl
  have h2 : ∀ t, trieHas (insertAll P₁) t = true →
      (getNode (insertAll P₁) (idxOf (insertAll P₁) t)).output =
        (getNode (insertAll P₂) (idxOf (insertAll P₂) t)).output := by
    intro t ht
    have ht2 : trieHas (insertAll P₂) t = true := by
      rw [← h1 t]
      exact ht
    rw [W1.output_eq t _ (trieHas_nodeAt ht), W2.output_eq t _ (trieHas_nodeAt ht2),
      count_perm t hperm]
  rw [Search_eq_canon (trieWF_to_preWF W1) text,
    Search_eq_canon (trieWF_to_preWF W2) text, canonSearch, canonSearch,
    canonLoop_arena_congr h1 h2 text [] 0 []]

theorem c10_witness :
    Search (BuildFailureLinks (insertAll [['a'], ['a','b']])) ['a','b'] =
      Search (BuildFailureLinks (insertAll [['a','b'], ['a']])) ['a','b'] :=
  c10_insertion_order_irrelevant [['a'], ['a','b']] [['a','b'], ['a']] ['a','b']
    (by decide)

theorem lookupResult_recordMatch (r : List (List Char × List Int))
    (p : List Char) (pos : Int) (q : List Char) :
    lookupResult (recordMatch r p pos) q =
      if q = p then lookupResult r q ++ [pos] else lookupResult r q := by
  induction r with
  | nil =>
    by_cases hq : q = p
    · subst hq
      simp [recordMatch, lookupResult]
    · simp [recordMatch, lookupResult, hq, Ne.symm hq]
  | cons e rest ih =>
    obtain ⟨k, l⟩ := e
    by_cases hk : k = p
    · subst hk
      by_cases hq : q = k
      · subst hq
        simp [recordMatch, lookupResult]
      · simp [recordMatch, lookupResult, hq, Ne.symm hq]
    · by_cases hq : k = q
      · subst hq
        have hqp : ¬(k = p) := hk
        simp [recordMatch, lookupResult, hk, hqp]
      · simp [recordMatch, lookupResult, hk, hq, ih]

theorem lookupResult_recordOutputs (q : List Char) :
    ∀ (out : List (List Char)) (index : Int) (r : List (List Char × List Int)),
      lookupResult (recordOutputs index r out) q =
        lookupResult r q ++
          List.replicate (out.count q) (index - (byteLen q : Int) + 1) := by
  intro out
  induction out with
  | nil =>
    intro index r
    simp [recordOutputs]
  | cons p ps ih =>
    intro index r
    rw [recordOutputs, ih, lookupResult_recordMatch, List.count_cons]
    simp only [beq_iff_eq]
    by_cases hq : q = p
    · subst hq
      rw [if_pos rfl, if_pos rfl, List.append_assoc, List.singleton_append,
        ← List.replicate_succ]
    · have hpq : ¬ p = q := fun h => hq h.symm
      rw [if_neg hq, if_neg hpq, Nat.add_zero]

theorem lookupResult_canonLoop {a : AhoCorasick} (q : List Char) :
    ∀ (cs u : List Char) (index : Nat) (r : List (List Char × List Int)),
      lookupResult (canonLoop a u cs index r) q =
        lookupResult r q ++ canonPos a q u cs index := by
  intro cs
  induction cs with
  | nil =>
    intro u index r
    simp [canonLoop, canonPos]
  | cons c cs ih =>
    intro u index r
    rw [canonLoop, canonPos, ih, lookupResult_recordOutputs, List.append_assoc]

theorem trieHas_of_pattern {P : List (List Char)} {a : AhoCorasick}
    (W : TrieWF P a) {q : List Char} (hqP : q ∈ P) : trieHas a q = true := by
  have h := (W.mem_iff q).mpr (Or.inr ⟨q, hqP, ⟨[], List.append_nil q⟩⟩)
  simpa [trieHas] using h

theorem count_nodup (l : List (List Char)) (q : List Char) (h : l.Nodup) :
    l.count q = if q ∈ l then 1 else 0 := by
  have hc := congrArg List.length (replicate_count_of_nodup l q h)
  simpa [apply_ite List.length] using hc

/-- A nonempty pattern is in the emitted output after consuming `w` iff it
is a suffix of `w`. -/
theorem mem_outStar_longSuffix {P : List (List Char)} {a : AhoCorasick}
    (W : TrieWF P a) (hP : P.Nodup) {q : List Char}
    (hqP : q ∈ P) (hqne : q ≠ []) (w : List Char) :
    q ∈ outStar a (longSuffix a w) ↔ q <:+ w := by
  have hqt : trieHas a q = true := trieHas_of_pattern W hqP
  by_cases hσ : longSuffix a w = []
  · rw [hσ, outStar_nil]
    constructor
    · intro hq
      rw [own_output_of_nodup W hP (trieHas_nil a)] at hq
      by_cases hm : ([] : List Char) ∈ P
      · rw [if_pos hm, List.mem_singleton] at hq
        exact absurd hq hqne
      · rw [if_neg hm] at hq
        exact absurd hq (List.not_mem_nil q)
    · intro hq
      exfalso
      have hle := longSuffix_longest hq hqt
      rw [hσ] at hle
      simp only [List.length_nil, Nat.le_zero, List.length_eq_zero] at hle
      exact hqne hle
  · rw [outStar_mem_iff W hP (longSuffix_trieHas a w) hσ]
    constructor
    · rintro ⟨-, hq | ⟨hqc, -⟩⟩
      · rw [hq]
        exact longSuffix_suffix a w
      · exact ((fsChain_mem q hqc).1).trans (longSuffix_suffix a w)
    · intro hq
      refine ⟨hqP, ?_⟩
      have hlen := longSuffix_longest hq hqt
      have hqs : q <:+ longSuffix a w :=
        List.suffix_of_suffix_length_le hq (longSuffix_suffix a w) hlen
      by_cases heq : q = longSuffix a w
      · exact Or.inl heq
      · exact Or.inr ⟨fsChain_complete hqs heq hqt, hqne⟩

/-- A nonempty pattern's multiplicity in the emitted output after `w`:
once when it is a suffix of `w`, zero otherwise. -/
theorem outStar_count {P : List (List Char)} {a : AhoCorasick}
    (W : TrieWF P a) (hP : P.Nodup) {q : List Char}
    (hqP : q ∈ P) (hqne : q ≠ []) (w : List Char) :
    (outStar a (longSuffix a w)).count q = if q <:+ w then 1 else 0 := by
  have hqt : trieHas a q = true := trieHas_of_pattern W hqP
  have hm := mem_outStar_longSuffix W hP hqP hqne w
  by_cases hq : q <:+ w
  · rw [if_pos hq]
    have hσ : longSuffix a w ≠ [] := by
      intro hc
      have hle := longSuffix_longest hq hqt
      rw [hc] at hle
      simp only [List.length_nil, Nat.le_zero, List.length_eq_zero] at hle
      exact hqne hle
    rw [count_nodup _ _ (outStar_nodup W hP (longSuffix_trieHas a w) hσ),
      if_pos (hm.mpr hq)]
  · rw [if_neg hq]
    exact List.count_eq_zero.mpr (fun hmem => hq (hm.mp hmem))

theorem byteLen_cons (c : Char) (l : List Char) :
    byteLen (c :: l) = c.utf8Size + byteLen l := by
  simp [byteLen]

theorem map_filter_succ (p p' : Nat → Bool) (g g' : Nat → Int)
    (hp : ∀ i, p (Nat.succ i) = p' i) (hg : ∀ i, g (Nat.succ i) = g' i) :
    ∀ l : List Nat,
      ((l.map Nat.succ).filter p).map g = (l.filter p').map g' := by
  intro l
  induction l with
  | nil => rfl
  | cons x l ih =>
    rw [List.map_cons, List.filter_cons, List.filter_cons, hp x]
    by_cases hx : p' x = true
    · rw [if_pos hx, if_pos hx, List.map_cons, List.map_cons, hg x, ih]
    · rw [if_neg hx, if_neg hx, ih]

/-- The positions `canonLoop` appends for the pattern `q`, in closed form:
one entry per step `i` of `cs` at which `q` is a suffix of the consumed
text, carrying the byte-arithmetic value the code computes. -/
theorem canonPos_eq {P : List (List Char)} {a : AhoCorasick}
    (W : TrieWF P a) (hP : P.Nodup) {q : List Char} (hqP : q ∈ P) (hqne : q ≠ []) :
    ∀ (cs u : List Char) (index : Nat),
      canonPos a q u cs index =
        ((List.range cs.length).filter
            (fun i => q.isSuffixOf ((u ++ cs).take (u.length + i + 1)))).map
          (fun i => (index : Int) + (byteLen (cs.take i) : Int)
            - (byteLen q : Int) + 1) := by
  intro cs
  induction cs with
  | nil =>
    intro u index
    rfl
  | cons c cs ih =>
    intro u index
    rw [canonPos, outStar_count W hP hqP hqne (u ++ [c]),
      ih (u ++ [c]) (index + c.utf8Size)]
    simp only [List.length_cons, List.range_succ_eq_map, List.filter_cons]
    have ht0 : (u ++ c :: cs).take (u.length + 0 + 1) = u ++ [c] := by
      rw [List.append_cons]
      have he : u.length + 0 + 1 = (u ++ [c]).length + 0 := by simp
      rw [he, List.take_append 0, List.take_zero, List.append_nil]
    have htS : ∀ i : Nat, (u ++ c :: cs).take (u.length + Nat.succ i + 1)
        = ((u ++ [c]) ++ cs).take ((u ++ [c]).length + i + 1) := by
      intro i
      rw [List.append_cons]
      congr 1
      simp
      omega
    have htail : ((List.map Nat.succ (List.range cs.length)).filter
          (fun i => q.isSuffixOf ((u ++ c :: cs).take (u.length + i + 1)))).map
          (fun i => (index : Int) + (byteLen ((c :: cs).take i) : Int)
            - (byteLen q : Int) + 1)
        = ((List.range cs.length).filter
            (fun i => q.isSuffixOf (((u ++ [c]) ++ cs).take ((u ++ [c]).length + i + 1)))).map
          (fun i => ((index + c.utf8Size : Nat) : Int) + (byteLen (cs.take i) : Int)
            - (byteLen q : Int) + 1) := by
      apply map_filter_succ
      · intro i
        rw [htS i]
      · intro i
        rw [List.take_succ_cons, byteLen_cons]
        push_cast
        ring
    rw [ht0]
    by_cases hq : q <:+ u ++ [c]
    · have hpq : q.isSuffixOf (u ++ [c]) = true := List.isSuffixOf_iff_suffix.mpr hq
      rw [if_pos hq, if_pos hpq, List.replicate_one, List.map_cons, htail,
        List.singleton_append]
      congr 1
    · have hpq : ¬ q.isSuffixOf (u ++ [c]) = true := fun h =>
        hq (List.isSuffixOf_iff_suffix.mp h)
      rw [if_neg hq, if_neg hpq, List.replicate_zero, List.nil_append, htail]

/-- At the top level (empty consumed prefix, byte offset 0) the canonical
position list for a nonempty pattern is exactly `occRecorded`. -/
theorem canonPos_eq_occRecorded {P : List (List Char)} {a : AhoCorasick}
    (W : TrieWF P a) (hP : P.Nodup) {q : List Char}
    (hqP : q ∈ P) (hqne : q ≠ []) (text : List Char) :
    canonPos a q [] text 0 = occRecorded text q := by
  rw [canonPos_eq W hP hqP hqne text [] 0, occRecorded, occEnds]
  simp only [List.nil_append, List.length_nil, Nat.zero_add, Nat.cast_zero, zero_add]
  have hne : (!q.isEmpty) = true := by
    cases q with
    | nil => exact absurd rfl hqne
    | cons c lq => rfl
  simp only [hne, Bool.true_and, bytePos]

theorem mem_recordMatch {r : List (List Char × List Int)} {p : List Char}
    {pos : Int} {q : List Char} {l : List Int}
    (h : (q, l) ∈ recordMatch r p pos) : q = p ∨ ∃ lr, (q, lr) ∈ r := by
  induction r with
  | nil =>
    left
    rw [recordMatch, List.mem_singleton] at h
    exact congrArg Prod.fst h
  | cons e rest ih =>
    obtain ⟨k, kl⟩ := e
    rw [recordMatch] at h
    by_cases hk : k = p
    · rw [if_pos hk] at h
      rcases List.mem_cons.mp h with h1 | h1
      · left
        injection h1 with hq hl
        rw [hq]
        exact hk
      · exact Or.inr ⟨l, List.mem_cons_of_mem _ h1⟩
    · rw [if_neg hk] at h
      rcases List.mem_cons.mp h with h1 | h1
      · refine Or.inr ⟨kl, ?_⟩
        injection h1 with hq hl
        rw [hq]
        exact List.mem_cons_self _ _
      · rcases ih h1 with h2 | ⟨lr, h2⟩
        · exact Or.inl h2
        · exact Or.inr ⟨lr, List.mem_cons_of_mem _ h2⟩

theorem mem_recordOutputs {index : Int} {q : List Char} {l : List Int} :
    ∀ (out : List (List Char)) (r : List (List Char × List Int)),
      (q, l) ∈ recordOutputs index r out → q ∈ out ∨ ∃ lr, (q, lr) ∈ r := by
  intro out
  induction out with
  | nil =>
    intro r h
    exact Or.inr ⟨l, h⟩
  | cons p ps ih =>
    intro r h
    rw [recordOutputs] at h
    rcases ih _ h with h1 | ⟨lr, h1⟩
    · exact Or.inl (List.mem_cons_of_mem p h1)
    · rcases mem_recordMatch h1 with h2 | ⟨lr2, h2⟩
      · left
        rw [h2]
        exact List.mem_cons_self p ps
      · exact Or.inr ⟨lr2, h2⟩

theorem mem_canonLoop {a : AhoCorasick} {q : List Char} {l : List Int} :
    ∀ (cs u : List Char) (index : Nat) (r : List (List Char × List Int)),
      (q, l) ∈ canonLoop a u cs index r →
        (∃ lr, (q, lr) ∈ r) ∨
          ∃ n, n < cs.length ∧
            q ∈ outStar a (longSuffix a (u ++ cs.take (n + 1))) := by
  intro cs
  induction cs with
  | nil =>
    intro u index r h
    exact Or.inl ⟨l, h⟩
  | cons c cs ih =>
    intro u index r h
    rw [canonLoop] at h
    rcases ih (u ++ [c]) _ _ h with ⟨lr, h1⟩ | ⟨n, hn, h1⟩
    · rcases mem_recordOutputs _ _ h1 with h2 | ⟨lr2, h2⟩
      · refine Or.inr ⟨0, ?_, ?_⟩
        · simp only [List.length_cons]
          omega
        · simpa using h2
      · exact Or.inl ⟨lr2, h2⟩
    · refine Or.inr ⟨n + 1, ?_, ?_⟩
      · simp only [List.length_cons]
        omega
      · rw [List.take_succ_cons, List.append_cons]
        exact h1

theorem outStar_longSuffix_cases {P : List (List Char)} {a : AhoCorasick}
    (W : TrieWF P a) (hP : P.Nodup) {q w : List Char}
    (h : q ∈ outStar a (longSuffix a w)) : q ∈ P ∧ q <:+ w := by
  by_cases hσ : longSuffix a w = []
  · rw [hσ, outStar_nil, own_output_of_nodup W hP (trieHas_nil a)] at h
    by_cases hm : ([] : List Char) ∈ P
    · rw [if_pos hm, List.mem_singleton] at h
      subst h
      exact ⟨hm, List.nil_suffix⟩
    · rw [if_neg hm] at h
      exact absurd h (List.not_mem_nil q)
  · rw [outStar_mem_iff W hP (longSuffix_trieHas a w) hσ] at h
    obtain ⟨hqP, hq | ⟨hqc, -⟩⟩ := h
    · refine ⟨hqP, ?_⟩
      rw [hq]
      exact longSuffix_suffix a w
    · exact ⟨hqP, ((fsChain_mem q hqc).1).trans (longSuffix_suffix a w)⟩

/-- C1.  For every set of distinct nonempty patterns, each inserted once
into a fresh automaton, and one `BuildFailureLinks` call, `Search` returns
a result mapping each pattern to exactly its occurrences (one recorded
position per text position where the pattern ends, so overlapping and
nested occurrences are all reported exactly once), with only occurring
patterns present as keys; in particular the spec's worked example
(patterns a, ab, bab, bc, bca, c, caa; text "abccab") yields exactly
a↦[0,4], ab↦[0,4], bc↦[1], c↦[2,3], with bab, bca and caa absent. -/
theorem c1_search_reports_every_occurrence :
    (∀ (P : List (List Char)) (text : List Char), P.Nodup → (∀ p ∈ P, p ≠ []) →
      ∃ r, Search (BuildFailureLinks (insertAll P)) text = some r ∧
        (∀ p ∈ P, lookupResult r p = occRecorded text p) ∧
        (∀ q l, (q, l) ∈ r → q ∈ P ∧ occEnds text q ≠ [])) ∧
    Search exampleAuto "abccab".toList =
      some [(['a'], [0, 4]), (['a','b'], [0, 4]), (['b','c'], [1]), (['c'], [2, 3])] := by
  constructor
  · intro P text hP hne
    have W := insertAll_wf P
    have pre := trieWF_to_preWF W
    refine ⟨canonSearch (insertAll P) text, Search_eq_canon pre text, ?_, ?_⟩
    · intro p hp
      have hpne := hne p hp
      rw [canonSearch, lookupResult_canonLoop p text [] 0 []]
      show ([] : List Int) ++ canonPos (insertAll P) p [] text 0 = occRecorded text p
      rw [List.nil_append, canonPos_eq_occRecorded W hP hp hpne]
    · intro q l hql
      rw [canonSearch] at hql
      rcases mem_canonLoop text [] 0 [] hql with ⟨lr, h1⟩ | ⟨n, hn, h1⟩
      · exact absurd h1 (List.not_mem_nil _)
      · rw [List.nil_append] at h1
        obtain ⟨hqP, hqs⟩ := outStar_longSuffix_cases W hP h1
        have hqne := hne q hqP
        refine ⟨hqP, ?_⟩
        have hmem : n ∈ occEnds text q := by
          rw [occEnds, List.mem_filter]
          refine ⟨List.mem_range.mpr hn, ?_⟩
          have h2 : (!q.isEmpty) = true := by
            cases q with
            | nil => exact absurd rfl hqne
            | cons _ _ => rfl
          rw [h2, Bool.true_and]
          exact List.isSuffixOf_iff_suffix.mpr hqs
        exact List.ne_nil_of_mem hmem
  · decide

theorem c1_witness :
    ∃ r, Search (BuildFailureLinks (insertAll [['a'], ['b']])) ['a', 'b'] = some r ∧
      (∀ p ∈ [['a'], ['b']], lookupResult r p = occRecorded ['a', 'b'] p) ∧
      (∀ q l, (q, l) ∈ r → q ∈ [['a'], ['b']] ∧ occEnds ['a', 'b'] q ≠ []) :=
  c1_search_reports_every_occurrence.1 [['a'], ['b']] ['a', 'b']
    (by decide) (by decide)
